import Mathlib

/-!
Shallow embedding of the SpriteSlice frame-extraction core
(`src/unnamed/part_000`, a TypeScript module) and proofs about it.

Conventions of the embedding:
* JavaScript `number` values that are used as real numbers (tolerance,
  feather) are modelled as rationals; pixel bytes (entries of a
  `Uint8ClampedArray`) are naturals in `[0, 255]`.
* An `ImageData` is a width, a height and a flat byte list in RGBA order.
* In-place mutation is modelled by returning the updated buffer; functions
  of the source that only read the buffer thread it through their loop
  state unchanged.
* `Math.sqrt` / `Math.round` in the feather branch are modelled exactly
  over the reals; the embedded computation `featherRound` is computable
  (it counts the integers below the rounded value, deciding each
  comparison against a square root by squaring) and is proved equal to
  `⌊alpha * t + 1/2⌋ = round (alpha * t)`.
* The two `while` loops of `calculateGridRects` are modelled with
  explicit fuel (`none` = the JavaScript loop has not terminated within
  the given fuel).
-/

namespace SpriteSlice

/-- RGB color with byte channels, as produced by `hexToRgb`. -/
structure ColorRGB where
  r : ℕ
  g : ℕ
  b : ℕ
  deriving DecidableEq, Repr

/-- Model of a DOM `ImageData`: flat RGBA byte list, row-major. -/
structure ImageData where
  width : ℕ
  height : ℕ
  data : List ℕ
  deriving DecidableEq, Repr

/-- Model of the app's `Rect` record. -/
structure Rect where
  id : String
  x : ℤ
  y : ℤ
  w : ℤ
  h : ℤ
  deriving DecidableEq, Repr

/-- Alpha byte of pixel `(x, y)` of a buffer (row-major RGBA). -/
def alphaAt (img : ImageData) (x y : ℕ) : ℕ :=
  img.data.getD ((y * img.width + x) * 4 + 3) 0


/-! ## hexToRgb -/

/-- One character of the character class `[a-f\d]` of the source regex,
case-insensitively (`/i` flag), tested on its code point. -/
def isHexDigit (c : Char) : Bool :=
  (48 ≤ c.toNat && c.toNat ≤ 57) || (97 ≤ c.toNat && c.toNat ≤ 102) ||
    (65 ≤ c.toNat && c.toNat ≤ 70)

/-- Numeric value of a hex digit, as `parseInt(_, 16)` assigns it. -/
def hexVal (c : Char) : ℕ :=
  if 48 ≤ c.toNat && c.toNat ≤ 57 then c.toNat - 48
  else if 97 ≤ c.toNat && c.toNat ≤ 102 then c.toNat - 97 + 10
  else if 65 ≤ c.toNat && c.toNat ≤ 70 then c.toNat - 65 + 10
  else 0

/-- Characters the regex must match after consuming the optional `#`
(the `#?` prefix of the pattern is consumed exactly when present). -/
def hexBody (s : String) : List Char :=
  match s.data with
  | '#' :: rest => rest
  | l => l

/-- Source `hexToRgb`: matches `/^#?([a-f\d]{2})([a-f\d]{2})([a-f\d]{2})$/i`
against the string and converts each captured pair with `parseInt(_, 16)`;
a non-matching string gives `null` (here `none`). -/
def hexToRgb (s : String) : Option ColorRGB :=
  match hexBody s with
  | [c1, c2, c3, c4, c5, c6] =>
    if isHexDigit c1 && isHexDigit c2 && isHexDigit c3 && isHexDigit c4 &&
        isHexDigit c5 && isHexDigit c6 then
      some ⟨16 * hexVal c1 + hexVal c2, 16 * hexVal c3 + hexVal c4,
        16 * hexVal c5 + hexVal c6⟩
    else none
  | _ => none

/-- Spec-side description of the accepted format: an optional leading `#`
followed by exactly 6 hexadecimal digits of either case. -/
def hexFormat (s : String) : Prop :=
  (hexBody s).length = 6 ∧ ∀ c ∈ hexBody s, isHexDigit c = true

instance (s : String) : Decidable (hexFormat s) := by
  unfold hexFormat
  infer_instance

lemma hexVal_le (c : Char) : hexVal c ≤ 15 := by
  unfold hexVal
  split <;> rename_i h
  · simp only [Bool.and_eq_true, decide_eq_true_eq] at h
    omega
  · split <;> rename_i h2
    · simp only [Bool.and_eq_true, decide_eq_true_eq] at h2
      omega
    · split <;> rename_i h3
      · simp only [Bool.and_eq_true, decide_eq_true_eq] at h3
        omega
      · omega

/-- C8: `hexToRgb` succeeds exactly on an optional `#` followed by six hex
digits, and every produced channel is a byte. -/
theorem hexToRgb_format (s : String) :
    ((hexToRgb s).isSome ↔ hexFormat s) ∧
      ∀ c, hexToRgb s = some c → c.r ≤ 255 ∧ c.g ≤ 255 ∧ c.b ≤ 255 := by
  constructor
  · unfold hexToRgb hexFormat
    rcases hb : hexBody s with _ | ⟨c1, _ | ⟨c2, _ | ⟨c3, _ | ⟨c4, _ |
        ⟨c5, _ | ⟨c6, _ | ⟨c7, rest⟩⟩⟩⟩⟩⟩⟩ <;>
      try simp_all [List.forall_mem_cons, Bool.and_eq_true]
    all_goals tauto
  · intro c hc
    unfold hexToRgb at hc
    rcases hb : hexBody s with _ | ⟨c1, _ | ⟨c2, _ | ⟨c3, _ | ⟨c4, _ |
        ⟨c5, _ | ⟨c6, _ | ⟨c7, rest⟩⟩⟩⟩⟩⟩⟩ <;> rw [hb] at hc
    any_goals exact Option.noConfusion hc
    simp only [] at hc
    split at hc
    · injection hc with hc
      subst hc
      refine ⟨?_, ?_, ?_⟩ <;> simp only [] <;>
        [skip; skip; skip] <;>
        · have h1 := hexVal_le c1
          have h2 := hexVal_le c2
          have h3 := hexVal_le c3
          have h4 := hexVal_le c4
          have h5 := hexVal_le c5
          have h6 := hexVal_le c6
          omega
    · simp at hc

/-! ## calculateGridRects

The two nested `while` loops are modelled with fuel; `none` means the
JavaScript loop would still be running after `fuel` iterations. -/

/-- Grid settings record (`AppSettings['grid']`). -/
structure GridSettings where
  width : ℤ
  height : ℤ
  marginX : ℤ
  marginY : ℤ
  spacingX : ℤ
  spacingY : ℤ
  deriving DecidableEq, Repr

/-- Inner `while (x + width <= imgWidth)` loop: emits one rect per step at
cursor `x`, advancing by `width + spacingX`; returns the emitted row and
the id counter after the row. -/
def gridInner (imgWidth : ℤ) (g : GridSettings) (y : ℤ) :
    ℕ → ℤ → ℕ → Option (List Rect × ℕ)
  | 0, x, idC => if x + g.width ≤ imgWidth then none else some ([], idC)
  | fuel + 1, x, idC =>
    if x + g.width ≤ imgWidth then
      (gridInner imgWidth g y fuel (x + g.width + g.spacingX) (idC + 1)).map
        fun p => (⟨"grid-" ++ toString idC, x, y, g.width, g.height⟩ :: p.1, p.2)
    else some ([], idC)

/-- Outer `while (y + height <= imgHeight)` loop: one row per step,
resetting `x` to `marginX` and advancing `y` by `height + spacingY`. -/
def gridOuter (imgWidth imgHeight : ℤ) (g : GridSettings) :
    ℕ → ℤ → ℕ → Option (List Rect)
  | 0, y, _ => if y + g.height ≤ imgHeight then none else some []
  | fuel + 1, y, idC =>
    if y + g.height ≤ imgHeight then
      (gridInner imgWidth g y fuel g.marginX idC).bind fun p =>
        (gridOuter imgWidth imgHeight g fuel (y + g.height + g.spacingY) p.2).map
          fun rest => p.1 ++ rest
    else some []

/-- Source `calculateGridRects`: early empty result on non-positive cell
size, otherwise the cursor walk starting at `(marginX, marginY)`. -/
def calculateGridRects (fuel : ℕ) (imgWidth imgHeight : ℤ) (g : GridSettings) :
    Option (List Rect) :=
  if g.width ≤ 0 ∨ g.height ≤ 0 then some []
  else gridOuter imgWidth imgHeight g fuel g.marginY 0

/-- C6: non-positive cell width or height short-circuits to the empty list
for every image size, margin, spacing and fuel; and the 64×64 image cut
into 32×32 cells with no margin or spacing yields exactly the four cells
in row-major emission order with ids counted from 0. -/
theorem calculateGridRects_cases :
    (∀ (fuel : ℕ) (imgWidth imgHeight : ℤ) (g : GridSettings),
        g.width ≤ 0 ∨ g.height ≤ 0 →
          calculateGridRects fuel imgWidth imgHeight g = some []) ∧
      calculateGridRects 64 64 64 ⟨32, 32, 0, 0, 0, 0⟩ =
        some [⟨"grid-0", 0, 0, 32, 32⟩, ⟨"grid-1", 32, 0, 32, 32⟩,
          ⟨"grid-2", 0, 32, 32, 32⟩, ⟨"grid-3", 32, 32, 32, 32⟩] := by
  constructor
  · intro fuel imgWidth imgHeight g h
    unfold calculateGridRects
    rw [if_pos h]
  · decide

/-- Witness for the hypothesis of `calculateGridRects_cases`. -/
theorem calculateGridRects_cases_witness :
    ((0 : ℤ) ≤ 0 ∨ (7 : ℤ) ≤ 0) ∧
      calculateGridRects 3 10 10 ⟨0, 7, 1, 1, 2, 2⟩ = some [] :=
  ⟨by decide, (calculateGridRects_cases.1 3 10 10 ⟨0, 7, 1, 1, 2, 2⟩ (by decide))⟩

lemma gridInner_total (imgWidth : ℤ) (g : GridSettings) (y : ℤ)
    (hw : 0 < g.width) (hsx : 0 < g.width + g.spacingX) :
    ∀ (k : ℕ) (x : ℤ) (idC : ℕ), (imgWidth - x).toNat < k →
      ∃ p, ∀ fuel, k ≤ fuel → gridInner imgWidth g y fuel x idC = some p := by
  intro k
  induction k with
  | zero => intro x idC h; omega
  | succ k ih =>
    intro x idC h
    by_cases hc : x + g.width ≤ imgWidth
    · have hk : (imgWidth - (x + g.width + g.spacingX)).toNat < k := by omega
      obtain ⟨p, hp⟩ := ih (x + g.width + g.spacingX) (idC + 1) hk
      refine ⟨(⟨"grid-" ++ toString idC, x, y, g.width, g.height⟩ :: p.1, p.2), ?_⟩
      intro fuel hfuel
      match fuel, hfuel with
      | fuel + 1, hfuel =>
        rw [gridInner, if_pos hc, hp fuel (by omega)]
        rfl
    · refine ⟨([], idC), fun fuel _ => ?_⟩
      cases fuel with
      | zero => rw [gridInner, if_neg hc]
      | succ fuel => rw [gridInner, if_neg hc]

lemma gridOuter_total (imgWidth imgHeight : ℤ) (g : GridSettings)
    (hw : 0 < g.width) (hh : 0 < g.height)
    (hsx : 0 < g.width + g.spacingX) (hsy : 0 < g.height + g.spacingY) :
    ∀ (k : ℕ) (y : ℤ) (idC : ℕ), (imgHeight - y).toNat < k →
      ∃ l, ∀ fuel, k + (imgWidth - g.marginX).toNat + 1 ≤ fuel →
        gridOuter imgWidth imgHeight g fuel y idC = some l := by
  intro k
  induction k with
  | zero => intro y idC h; omega
  | succ k ih =>
    intro y idC h
    by_cases hc : y + g.height ≤ imgHeight
    · obtain ⟨p, hp⟩ := gridInner_total imgWidth g y hw hsx
        ((imgWidth - g.marginX).toNat + 1) g.marginX idC (by omega)
      have hk : (imgHeight - (y + g.height + g.spacingY)).toNat < k := by omega
      obtain ⟨l, hl⟩ := ih (y + g.height + g.spacingY) p.2 hk
      refine ⟨p.1 ++ l, ?_⟩
      intro fuel hfuel
      match fuel, hfuel with
      | fuel + 1, hfuel =>
        rw [gridOuter, if_pos hc, hp fuel (by omega)]
        simp only [Option.some_bind]
        rw [hl fuel (by omega)]
        rfl
    · refine ⟨[], fun fuel _ => ?_⟩
      cases fuel with
      | zero => rw [gridOuter, if_neg hc]
      | succ fuel => rw [gridOuter, if_neg hc]

/-- Divergence of the inner loop when the horizontal step is zero and the
cell fits: the cursor never moves, so no fuel suffices. -/
lemma gridInner_diverges (imgWidth : ℤ) (g : GridSettings) (y : ℤ)
    (hzero : g.width + g.spacingX = 0) :
    ∀ (fuel : ℕ) (x : ℤ) (idC : ℕ), x + g.width ≤ imgWidth →
      gridInner imgWidth g y fuel x idC = none := by
  intro fuel
  induction fuel with
  | zero => intro x idC hx; rw [gridInner, if_pos hx]
  | succ fuel ih =>
    intro x idC hx
    have hx' : x + g.width + g.spacingX = x := by omega
    rw [gridInner, if_pos hx, hx', ih x (idC + 1) hx]
    rfl

/-- C10: with positive cell sizes and positive combined steps the grid walk
terminates: some fuel (and every larger fuel) returns a definite finite
list.  Moreover the degeneracy guard really only checks the cell size: with
`width + spacingX = 0` (a negative spacing the guard does not reject) the
inner loop never terminates on an image wide enough for one cell. -/
theorem calculateGridRects_total :
    (∀ (imgWidth imgHeight : ℤ) (g : GridSettings),
        0 < g.width → 0 < g.height →
        0 < g.width + g.spacingX → 0 < g.height + g.spacingY →
          ∃ (n : ℕ) (l : List Rect), ∀ fuel, n ≤ fuel →
            calculateGridRects fuel imgWidth imgHeight g = some l) ∧
      ∀ fuel, calculateGridRects fuel 1 1 ⟨1, 1, 0, 0, -1, 0⟩ = none := by
  constructor
  · intro imgWidth imgHeight g hw hh hsx hsy
    obtain ⟨l, hl⟩ := gridOuter_total imgWidth imgHeight g hw hh hsx hsy
      ((imgHeight - g.marginY).toNat + 1) g.marginY 0 (by omega)
    refine ⟨(imgHeight - g.marginY).toNat + 1 + (imgWidth - g.marginX).toNat + 1, l, ?_⟩
    intro fuel hfuel
    unfold calculateGridRects
    rw [if_neg (by push_neg; omega), hl fuel (by omega)]
  · intro fuel
    unfold calculateGridRects
    rw [if_neg (by norm_num)]
    match fuel with
    | 0 => rw [gridOuter, if_pos (by norm_num)]
    | fuel + 1 =>
      rw [gridOuter, if_pos (by norm_num),
        gridInner_diverges 1 ⟨1, 1, 0, 0, -1, 0⟩ 0 (by norm_num) fuel 0 0 (by norm_num)]
      rfl

/-- Witness for the hypotheses of `calculateGridRects_total`. -/
theorem calculateGridRects_total_witness :
    (0 : ℤ) < 2 ∧ (0 : ℤ) < 3 ∧ (0 : ℤ) < 2 + 1 ∧ (0 : ℤ) < 3 + 1 ∧
      ∃ (n : ℕ) (l : List Rect), ∀ fuel, n ≤ fuel →
        calculateGridRects fuel 9 9 ⟨2, 3, 1, 1, 1, 1⟩ = some l :=
  ⟨by decide, by decide, by decide, by decide,
    calculateGridRects_total.1 9 9 ⟨2, 3, 1, 1, 1, 1⟩
      (by decide) (by decide) (by decide) (by decide)⟩

/-! ## Color keying -/

/-- Squared Euclidean RGB distance of a pixel to the target color
(`distSq` in the source; alpha is not part of the distance). -/
def colorDistSq (r g b : ℕ) (tc : ColorRGB) : ℤ :=
  ((r : ℤ) - tc.r) ^ 2 + ((g : ℤ) - tc.g) ^ 2 + ((b : ℤ) - tc.b) ^ 2

/-- Decides `q ≤ a * Real.sqrt d2` (for `0 ≤ d2`) by squaring. -/
def qLeMulSqrt (q : ℚ) (a : ℕ) (d2 : ℤ) : Bool :=
  if q ≤ 0 then true else decide (q * q ≤ (a : ℚ) * a * d2)

/-- Computable value of `Math.round(a * t)` with
`t = (Math.sqrt d2 - tol) / fp`, valid while `0 < fp` and
`tol * tol < d2 ≤ (tol + fp)^2` (the feather branch): it counts the
integers `k ∈ [1, a]` with `k ≤ a * t + 1/2`. -/
def featherRound (a : ℕ) (d2 : ℤ) (tol fp : ℚ) : ℕ :=
  ((Finset.range a).filter
    (fun (j : ℕ) => qLeMulSqrt (fp * (2 * (j : ℚ) + 1) / 2 + a * tol) a d2)).card

/-- Per-pixel alpha update of `applyColorKeyToImageData`: the three-branch
body of the loop, acting on one RGBA quadruple (`tol = max 0 tolerance`,
`featherPx = max 0 feather`, `tolSq`, `featherSq` written out). -/
def keyAlpha (r g b a : ℕ) (tc : ColorRGB) (tolerance feather : ℚ) : ℕ :=
  if (colorDistSq r g b tc : ℚ) ≤ max 0 tolerance * max 0 tolerance then 0
  else if 0 < max 0 feather ∧ (colorDistSq r g b tc : ℚ) ≤
      (max 0 tolerance + max 0 feather) * (max 0 tolerance + max 0 feather) then
    featherRound a (colorDistSq r g b tc) (max 0 tolerance) (max 0 feather)
  else a

/-- The `for (i = 0; i < data.length; i += 4)` loop of
`applyColorKeyToImageData` over the flat byte list: each full RGBA
quadruple has its alpha rewritten; a trailing partial quadruple is left
alone (in JavaScript its reads produce `NaN`, every comparison with `NaN`
is false, and no branch fires). -/
def applyColorKeyData (tc : ColorRGB) (tolerance feather : ℚ) : List ℕ → List ℕ
  | r :: g :: b :: a :: rest =>
    r :: g :: b :: keyAlpha r g b a tc tolerance feather ::
      applyColorKeyData tc tolerance feather rest
  | l => l

/-- Source `applyColorKeyToImageData` (mutation modelled by returning the
updated buffer). -/
def applyColorKeyToImageData (img : ImageData) (tc : ColorRGB)
    (tolerance feather : ℚ) : ImageData :=
  { img with data := applyColorKeyData tc tolerance feather img.data }

/-- Source `applyColorKeysToImageData`: one `applyColorKeyToImageData` per
target, sequentially; the empty list is a no-op. -/
def applyColorKeysToImageData (img : ImageData) (tcs : List ColorRGB)
    (tolerance feather : ℚ) : ImageData :=
  tcs.foldl (fun im tc => applyColorKeyToImageData im tc tolerance feather) img

lemma qLeMulSqrt_iff (q : ℚ) (a : ℕ) (d2 : ℤ) (hd2 : 0 ≤ d2) :
    qLeMulSqrt q a d2 = true ↔ (q : ℝ) ≤ (a : ℝ) * Real.sqrt (d2 : ℝ) := by
  have hs : (0 : ℝ) ≤ (a : ℝ) * Real.sqrt (d2 : ℝ) :=
    mul_nonneg (Nat.cast_nonneg a) (Real.sqrt_nonneg _)
  unfold qLeMulSqrt
  by_cases hq : q ≤ 0
  · simp only [if_pos hq, true_iff]
    exact le_trans (by exact_mod_cast hq) hs
  · rw [if_neg hq]
    push_neg at hq
    have hqR : (0 : ℝ) < (q : ℝ) := by exact_mod_cast hq
    have hsqrt : (a : ℝ) * Real.sqrt (d2 : ℝ) = Real.sqrt ((a : ℝ) * a * d2) := by
      rw [show ((a : ℝ) * a * d2) = ((a : ℝ) * a) * d2 by ring,
        Real.sqrt_mul (by positivity), Real.sqrt_mul_self (Nat.cast_nonneg a)]
    rw [decide_eq_true_eq, hsqrt]
    rw [show (q : ℝ) ≤ Real.sqrt ((a : ℝ) * a * d2) ↔
        (q : ℝ) ^ 2 ≤ (a : ℝ) * a * d2 from
      Real.le_sqrt hqR.le (by positivity)]
    constructor
    · intro h
      have : ((q * q : ℚ) : ℝ) ≤ (((a : ℚ) * a * d2 : ℚ) : ℝ) := by exact_mod_cast h
      calc (q : ℝ) ^ 2 = ((q * q : ℚ) : ℝ) := by push_cast; ring
        _ ≤ (a : ℝ) * a * d2 := by push_cast at this ⊢; linarith
    · intro h
      have h2 : (q : ℝ) ^ 2 ≤ ((a : ℚ) * a * d2 : ℚ) := by push_cast; push_cast at h; linarith
      have : ((q * q : ℚ) : ℝ) ≤ (((a : ℚ) * a * d2 : ℚ) : ℝ) := by
        push_cast; push_cast at h2; nlinarith [h2]
      exact_mod_cast this

lemma range_filter_lt_card (a k : ℕ) :
    ((Finset.range a).filter (fun j => j < k)).card = min k a := by
  have : (Finset.range a).filter (fun j => j < k) = Finset.range (min k a) := by
    ext j
    simp only [Finset.mem_filter, Finset.mem_range]
    omega
  rw [this, Finset.card_range]

/-- Bridge between the computable `featherRound` and the exact real
computation `Math.round(a * (Math.sqrt d2 - tol) / fp)` performed by the
source in the feather branch. -/
lemma featherRound_eq (a : ℕ) (d2 : ℤ) (tol fp : ℚ)
    (htol : 0 ≤ tol) (hfp : 0 < fp)
    (hlow : (tol * tol : ℚ) < (d2 : ℚ))
    (hhigh : (d2 : ℚ) ≤ (tol + fp) * (tol + fp)) :
    (featherRound a d2 tol fp : ℤ) =
      round ((a : ℝ) * ((Real.sqrt (d2 : ℝ) - (tol : ℝ)) / (fp : ℝ))) := by
  have hd2 : (0 : ℤ) ≤ d2 := by
    have : (0 : ℚ) ≤ tol * tol := mul_self_nonneg tol
    have : (0 : ℚ) < (d2 : ℚ) := lt_of_le_of_lt this hlow
    exact_mod_cast this.le
  have hd2R : (0 : ℝ) ≤ (d2 : ℝ) := by exact_mod_cast hd2
  set A : ℝ := (a : ℝ) with hA
  set T : ℝ := (tol : ℝ) with hT
  set F : ℝ := (fp : ℝ) with hF
  have hT0 : 0 ≤ T := by rw [hT]; exact_mod_cast htol
  have hF0 : 0 < F := by rw [hF]; exact_mod_cast hfp
  set s : ℝ := Real.sqrt (d2 : ℝ) with hsdef
  have hs0 : 0 ≤ s := Real.sqrt_nonneg _
  have hTs : T < s := by
    rw [hsdef]
    rw [Real.lt_sqrt hT0]
    have : ((tol * tol : ℚ) : ℝ) < ((d2 : ℚ) : ℝ) := by exact_mod_cast hlow
    push_cast at this
    nlinarith [this]
  have hsTF : s ≤ T + F := by
    rw [hsdef]
    rw [Real.sqrt_le_left (by linarith)]
    have : ((d2 : ℚ) : ℝ) ≤ ((tol + fp) * (tol + fp) : ℚ) := by exact_mod_cast hhigh
    push_cast at this
    nlinarith [this]
  set t : ℝ := (s - T) / F with htdef
  have ht0 : 0 < t := div_pos (by linarith) hF0
  have ht1 : t ≤ 1 := by
    rw [htdef, div_le_one hF0]
    linarith
  set x : ℝ := A * t + 1 / 2 with hxdef
  have hx0 : 0 ≤ x := by
    have : 0 ≤ A * t := mul_nonneg (Nat.cast_nonneg a) ht0.le
    rw [hxdef]; linarith
  have hfl0 : 0 ≤ ⌊x⌋ := Int.floor_nonneg.2 hx0
  have hfla : ⌊x⌋ ≤ (a : ℤ) := by
    have hxa : x ≤ A + 1 / 2 := by
      have : A * t ≤ A * 1 := by
        apply mul_le_mul_of_nonneg_left ht1 (Nat.cast_nonneg a)
      rw [hxdef]; linarith
    have h1 : ⌊x⌋ ≤ ⌊A + 1 / 2⌋ := Int.floor_le_floor hxa
    have h2 : ⌊A + 1 / 2⌋ = (a : ℤ) := by
      rw [hA, show ((a : ℕ) : ℝ) = ((a : ℤ) : ℝ) by push_cast; ring,
        Int.floor_int_add]
      norm_num
    omega
  have hcount : featherRound a d2 tol fp = ⌊x⌋.toNat := by
    unfold featherRound
    have hcongr : ∀ j ∈ Finset.range a,
        (qLeMulSqrt (fp * (2 * (j : ℚ) + 1) / 2 + a * tol) a d2 = true ↔
          j < ⌊x⌋.toNat) := by
      intro j _
      rw [qLeMulSqrt_iff _ _ _ hd2]
      have hcast : ((fp * (2 * (j : ℚ) + 1) / 2 + a * tol : ℚ) : ℝ) =
          F * (2 * (j : ℝ) + 1) / 2 + A * T := by
        rw [hA, hT, hF]; push_cast; ring
      rw [hcast]
      have step1 : F * (2 * (j : ℝ) + 1) / 2 + A * T ≤ A * s ↔
          ((j : ℝ) + 1 / 2) * F ≤ A * (s - T) := by
        constructor <;> intro h <;> nlinarith [h]
      have step2 : ((j : ℝ) + 1 / 2) * F ≤ A * (s - T) ↔ (j : ℝ) + 1 / 2 ≤ A * t := by
        rw [htdef, ← mul_div_assoc, le_div_iff₀ hF0]
      have step3 : (j : ℝ) + 1 / 2 ≤ A * t ↔ (j : ℝ) + 1 ≤ x := by
        rw [hxdef]; constructor <;> intro h <;> linarith
      have step4 : (j : ℝ) + 1 ≤ x ↔ (j : ℤ) + 1 ≤ ⌊x⌋ := by
        rw [Int.le_floor]; push_cast; tauto
      rw [step1, step2, step3, step4]
      omega
    rw [Finset.filter_congr hcongr, range_filter_lt_card]
    omega
  have hround : round (A * t) = ⌊x⌋ := by rw [round_eq, hxdef]
  rw [hcount, hround.symm, Int.toNat_of_nonneg (hround ▸ hfl0)]

/-- Statement of the C3 claim exactly as written: in the feather branch the
alpha becomes `round(alpha * t)` and `t = (sqrt d2 - tol) / f` lies in
`[0, 1)`. -/
def featherBranchClaim : Prop :=
  ∀ (r g b a : ℕ) (tc : ColorRGB) (tolerance feather : ℚ), 0 ≤ tolerance →
    ¬ ((colorDistSq r g b tc : ℚ) ≤ tolerance * tolerance) → 0 < feather →
    ((colorDistSq r g b tc : ℚ) ≤ (tolerance + feather) * (tolerance + feather)) →
    ((keyAlpha r g b a tc tolerance feather : ℤ) =
        round ((a : ℝ) *
          ((Real.sqrt ((colorDistSq r g b tc : ℤ) : ℝ) - (tolerance : ℝ)) /
            (feather : ℝ))) ∧
      0 ≤ (Real.sqrt ((colorDistSq r g b tc : ℤ) : ℝ) - (tolerance : ℝ)) /
          (feather : ℝ) ∧
      (Real.sqrt ((colorDistSq r g b tc : ℤ) : ℝ) - (tolerance : ℝ)) /
          (feather : ℝ) < 1)

/-- C3 counterexample: at squared distance exactly `(tolerance+feather)^2`
(distance 20 with tolerance 10, feather 10) the feather branch is taken and
`t = 1`, which is not in `[0, 1)`. -/
theorem featherBranchClaim_false : ¬ featherBranchClaim := by
  intro h
  have h400 : colorDistSq 20 0 0 ⟨0, 0, 0⟩ = 400 := by
    unfold colorDistSq; norm_num
  have hs : Real.sqrt ((colorDistSq 20 0 0 ⟨0, 0, 0⟩ : ℤ) : ℝ) = 20 := by
    rw [h400, show (((400 : ℤ)) : ℝ) = (20 : ℝ) ^ 2 by norm_num,
      Real.sqrt_sq (by norm_num)]
  have := (h 20 0 0 255 ⟨0, 0, 0⟩ 10 10 (by norm_num)
    (by rw [h400]; norm_num) (by norm_num) (by rw [h400]; norm_num)).2.2
  rw [hs] at this
  norm_num at this

lemma keyAlpha_fp_cases (feather : ℚ) (tol d2q : ℚ) :
    (0 < max 0 feather ∧ d2q ≤ (tol + max 0 feather) * (tol + max 0 feather)) ↔
      (0 < feather ∧ d2q ≤ (tol + feather) * (tol + feather)) := by
  by_cases hf : 0 < feather
  · rw [max_eq_right hf.le]
  · rw [max_eq_left (by linarith [not_lt.mp hf])]
    simp only [lt_self_iff_false, false_and, false_iff]
    intro hcon
    exact hf hcon.1

lemma sqrt_t_pos_le_one (d2 : ℤ) (tol fp : ℚ) (htol : 0 ≤ tol) (hfp : 0 < fp)
    (hlow : (tol * tol : ℚ) < (d2 : ℚ))
    (hhigh : (d2 : ℚ) ≤ (tol + fp) * (tol + fp)) :
    0 < (Real.sqrt ((d2 : ℤ) : ℝ) - (tol : ℝ)) / (fp : ℝ) ∧
      (Real.sqrt ((d2 : ℤ) : ℝ) - (tol : ℝ)) / (fp : ℝ) ≤ 1 := by
  have hT0 : (0 : ℝ) ≤ (tol : ℝ) := by exact_mod_cast htol
  have hF0 : (0 : ℝ) < (fp : ℝ) := by exact_mod_cast hfp
  have hTs : (tol : ℝ) < Real.sqrt (d2 : ℝ) := by
    rw [Real.lt_sqrt hT0]
    have : ((tol * tol : ℚ) : ℝ) < ((d2 : ℚ) : ℝ) := by exact_mod_cast hlow
    push_cast at this
    nlinarith [this]
  have hsTF : Real.sqrt (d2 : ℝ) ≤ (tol : ℝ) + (fp : ℝ) := by
    rw [Real.sqrt_le_left (by linarith)]
    have : ((d2 : ℚ) : ℝ) ≤ ((tol + fp) * (tol + fp) : ℚ) := by exact_mod_cast hhigh
    push_cast at this
    nlinarith [this]
  constructor
  · exact div_pos (by linarith) hF0
  · rw [div_le_one hF0]
    linarith

/-- C3 (amended): the three-branch rule of `applyColorKeyToImageData` on a
pixel, with `t ∈ (0, 1]` rather than `[0, 1)` in the feather branch; at
squared distance exactly `(tol+feather)^2` the feather branch fires with
`t = 1` and hence leaves the alpha unchanged.  With `tolerance = 10,
feather = 10`: distance exactly 10 keys the alpha to 0, distance 15 halves
it (`round(alpha/2)`), and distance 20 or more leaves it unchanged. -/
theorem applyColorKey_branch_rule (r g b a : ℕ) (tc : ColorRGB)
    (tolerance feather : ℚ) (htol : 0 ≤ tolerance) :
    (((colorDistSq r g b tc : ℚ) ≤ tolerance * tolerance →
        keyAlpha r g b a tc tolerance feather = 0) ∧
      (¬ ((colorDistSq r g b tc : ℚ) ≤ tolerance * tolerance) → 0 < feather →
        (colorDistSq r g b tc : ℚ) ≤ (tolerance + feather) * (tolerance + feather) →
        ((keyAlpha r g b a tc tolerance feather : ℤ) =
            round ((a : ℝ) *
              ((Real.sqrt ((colorDistSq r g b tc : ℤ) : ℝ) - (tolerance : ℝ)) /
                (feather : ℝ))) ∧
          0 < (Real.sqrt ((colorDistSq r g b tc : ℤ) : ℝ) - (tolerance : ℝ)) /
              (feather : ℝ) ∧
          (Real.sqrt ((colorDistSq r g b tc : ℤ) : ℝ) - (tolerance : ℝ)) /
              (feather : ℝ) ≤ 1)) ∧
      (¬ ((colorDistSq r g b tc : ℚ) ≤ tolerance * tolerance) →
        ¬ (0 < feather ∧
            (colorDistSq r g b tc : ℚ) ≤ (tolerance + feather) * (tolerance + feather)) →
        keyAlpha r g b a tc tolerance feather = a)) ∧
    (tolerance = 10 → feather = 10 →
      ((colorDistSq r g b tc = 100 → keyAlpha r g b a tc tolerance feather = 0) ∧
        (colorDistSq r g b tc = 225 →
          (keyAlpha r g b a tc tolerance feather : ℤ) = round ((a : ℝ) / 2)) ∧
        (400 ≤ colorDistSq r g b tc →
          keyAlpha r g b a tc tolerance feather = a))) := by
  have hmaxt : max 0 tolerance = tolerance := max_eq_right htol
  have hbr1 : ∀ h1 : (colorDistSq r g b tc : ℚ) ≤ tolerance * tolerance,
      keyAlpha r g b a tc tolerance feather = 0 := by
    intro h1
    unfold keyAlpha
    rw [hmaxt, if_pos h1]
  have hbr2 : ∀ (_ : ¬ ((colorDistSq r g b tc : ℚ) ≤ tolerance * tolerance))
      (_ : 0 < feather)
      (_ : (colorDistSq r g b tc : ℚ) ≤ (tolerance + feather) * (tolerance + feather)),
      keyAlpha r g b a tc tolerance feather =
        featherRound a (colorDistSq r g b tc) tolerance feather := by
    intro h1 h2 h3
    unfold keyAlpha
    rw [hmaxt, if_neg h1, max_eq_right h2.le, if_pos ⟨h2, h3⟩]
  have hbr3 : ∀ (_ : ¬ ((colorDistSq r g b tc : ℚ) ≤ tolerance * tolerance))
      (_ : ¬ (0 < feather ∧
        (colorDistSq r g b tc : ℚ) ≤ (tolerance + feather) * (tolerance + feather))),
      keyAlpha r g b a tc tolerance feather = a := by
    intro h1 h2
    unfold keyAlpha
    rw [hmaxt, if_neg h1, if_neg]
    rw [keyAlpha_fp_cases]
    exact h2
  refine ⟨⟨hbr1, ?_, hbr3⟩, ?_⟩
  · intro h1 h2 h3
    have hlow := lt_of_not_le h1
    refine ⟨?_, sqrt_t_pos_le_one _ _ _ htol h2 hlow h3⟩
    rw [hbr2 h1 h2 h3]
    exact featherRound_eq a _ tolerance feather htol h2 hlow h3
  · rintro rfl rfl
    refine ⟨?_, ?_, ?_⟩
    · intro hd
      apply hbr1
      rw [hd]; norm_num
    · intro hd
      have h1 : ¬ ((colorDistSq r g b tc : ℚ) ≤ 10 * 10) := by rw [hd]; norm_num
      have h3 : (colorDistSq r g b tc : ℚ) ≤ (10 + 10) * (10 + 10) := by
        rw [hd]; norm_num
      have := hbr2 h1 (by norm_num) h3
      rw [this, featherRound_eq a _ 10 10 (by norm_num) (by norm_num)
        (by rw [hd]; norm_num) h3, hd]
      have hs : Real.sqrt ((225 : ℤ) : ℝ) = 15 := by
        rw [show (((225 : ℤ)) : ℝ) = (15 : ℝ) ^ 2 by norm_num,
          Real.sqrt_sq (by norm_num)]
      rw [hs]
      norm_num [mul_one_div]
    · intro hd
      by_cases heq : colorDistSq r g b tc = 400
      · have h1 : ¬ ((colorDistSq r g b tc : ℚ) ≤ 10 * 10) := by rw [heq]; norm_num
        have h3 : (colorDistSq r g b tc : ℚ) ≤ (10 + 10) * (10 + 10) := by
          rw [heq]; norm_num
        have hz := hbr2 h1 (by norm_num) h3
        have hval : (keyAlpha r g b a tc 10 10 : ℤ) = (a : ℤ) := by
          rw [hz, featherRound_eq a _ 10 10 (by norm_num) (by norm_num)
            (by rw [heq]; norm_num) h3, heq]
          have hs : Real.sqrt ((400 : ℤ) : ℝ) = 20 := by
            rw [show (((400 : ℤ)) : ℝ) = (20 : ℝ) ^ 2 by norm_num,
              Real.sqrt_sq (by norm_num)]
          rw [hs]
          rw [show ((a : ℝ) * ((20 - (10 : ℚ)) / (10 : ℚ))) = ((a : ℕ) : ℝ) by
            push_cast; ring]
          exact round_natCast a
        exact_mod_cast hval
      · apply hbr3
        · intro hcon
          have : (400 : ℚ) ≤ (colorDistSq r g b tc : ℚ) := by exact_mod_cast hd
          nlinarith [hcon, this]
        · rintro ⟨-, hcon⟩
          have h400 : (400 : ℤ) < colorDistSq r g b tc := by omega
          have : (400 : ℚ) < (colorDistSq r g b tc : ℚ) := by exact_mod_cast h400
          nlinarith [hcon, this]

/-- Witness for the hypotheses of `applyColorKey_branch_rule`: a pixel at
distance 15 from the target with tolerance 10, feather 10. -/
theorem applyColorKey_branch_rule_witness :
    (0 : ℚ) ≤ 10 ∧ colorDistSq 15 0 0 ⟨0, 0, 0⟩ = 225 ∧
      (keyAlpha 15 0 0 200 ⟨0, 0, 0⟩ 10 10 : ℤ) = round ((200 : ℝ) / 2) :=
  ⟨by decide, by decide,
    ((applyColorKey_branch_rule 15 0 0 200 ⟨0, 0, 0⟩ 10 10 (by decide)).2
      rfl rfl).2.1 (by decide)⟩

/-! ## Structure of the color-key loop over the byte list -/

lemma applyColorKeyData_length (tc : ColorRGB) (tol f : ℚ) :
    ∀ l : List ℕ, (applyColorKeyData tc tol f l).length = l.length
  | r :: g :: b :: a :: rest => by
    show (r :: g :: b :: _ :: applyColorKeyData tc tol f rest).length = _
    simp [applyColorKeyData_length tc tol f rest]
  | [] => rfl
  | [x] => rfl
  | [x, y] => rfl
  | [x, y, z] => rfl

lemma applyColorKeyData_getD_nonalpha (tc : ColorRGB) (tol f : ℚ) :
    ∀ (l : List ℕ) (i : ℕ), i % 4 ≠ 3 →
      (applyColorKeyData tc tol f l).getD i 0 = l.getD i 0
  | r :: g :: b :: a :: rest, i, hi => by
    show (r :: g :: b :: _ :: applyColorKeyData tc tol f rest).getD i 0 = _
    match i, hi with
    | 0, _ => rfl
    | 1, _ => rfl
    | 2, _ => rfl
    | 3, hi => exact absurd rfl hi
    | n + 4, hi =>
      show (applyColorKeyData tc tol f rest).getD n 0 = _
      exact applyColorKeyData_getD_nonalpha tc tol f rest n (by omega)
  | [], _, _ => rfl
  | [x], _, _ => rfl
  | [x, y], _, _ => rfl
  | [x, y, z], _, _ => rfl

lemma keyAlpha_le (r g b a : ℕ) (tc : ColorRGB) (tol f : ℚ) :
    keyAlpha r g b a tc tol f ≤ a := by
  unfold keyAlpha
  split
  · exact Nat.zero_le a
  · split
    · exact le_trans (Finset.card_filter_le _ _) (le_of_eq (Finset.card_range a))
    · exact le_refl a

lemma applyColorKeyData_getD_le (tc : ColorRGB) (tol f : ℚ) :
    ∀ (l : List ℕ) (i : ℕ),
      (applyColorKeyData tc tol f l).getD i 0 ≤ l.getD i 0
  | r :: g :: b :: a :: rest, i => by
    show (r :: g :: b :: _ :: applyColorKeyData tc tol f rest).getD i 0 ≤ _
    match i with
    | 0 => exact le_refl _
    | 1 => exact le_refl _
    | 2 => exact le_refl _
    | 3 => exact keyAlpha_le r g b a tc tol f
    | n + 4 =>
      show (applyColorKeyData tc tol f rest).getD n 0 ≤ _
      exact applyColorKeyData_getD_le tc tol f rest n
  | [], _ => le_refl _
  | [x], _ => le_refl _
  | [x, y], _ => le_refl _
  | [x, y, z], _ => le_refl _

/-- The fold of `applyColorKeysToImageData`, at the byte-list level. -/
def applyKeysData (tcs : List ColorRGB) (tol f : ℚ) (l : List ℕ) : List ℕ :=
  tcs.foldl (fun d tc => applyColorKeyData tc tol f d) l

lemma applyColorKeysToImageData_eq (img : ImageData) (tcs : List ColorRGB)
    (tol f : ℚ) :
    applyColorKeysToImageData img tcs tol f =
      ⟨img.width, img.height, applyKeysData tcs tol f img.data⟩ := by
  induction tcs generalizing img with
  | nil => rfl
  | cons tc rest ih =>
    show applyColorKeysToImageData (applyColorKeyToImageData img tc tol f) rest tol f = _
    rw [ih]
    rfl

/-- Per-pixel alpha after a whole list of color keys. -/
def keysAlpha (r g b : ℕ) (tcs : List ColorRGB) (tol f : ℚ) (a : ℕ) : ℕ :=
  tcs.foldl (fun x tc => keyAlpha r g b x tc tol f) a

lemma applyKeysData_chunk (tcs : List ColorRGB) (tol f : ℚ) :
    ∀ (r g b a : ℕ) (rest : List ℕ),
      applyKeysData tcs tol f (r :: g :: b :: a :: rest) =
        r :: g :: b :: keysAlpha r g b tcs tol f a :: applyKeysData tcs tol f rest := by
  induction tcs with
  | nil => intro r g b a rest; rfl
  | cons tc rest' ih =>
    intro r g b a rest
    show applyKeysData rest' tol f (applyColorKeyData tc tol f (r :: g :: b :: a :: rest)) = _
    show applyKeysData rest' tol f
      (r :: g :: b :: keyAlpha r g b a tc tol f :: applyColorKeyData tc tol f rest) = _
    rw [ih]
    rfl

lemma applyKeysData_short (tcs : List ColorRGB) (tol f : ℚ) :
    ∀ l : List ℕ, l.length < 4 → applyKeysData tcs tol f l = l := by
  induction tcs with
  | nil => intro l _; rfl
  | cons tc rest ih =>
    intro l hl
    show applyKeysData rest tol f (applyColorKeyData tc tol f l) = l
    have hshort : applyColorKeyData tc tol f l = l := by
      match l, hl with
      | [], _ => rfl
      | [x], _ => rfl
      | [x, y], _ => rfl
      | [x, y, z], _ => rfl
    rw [hshort]
    exact ih l hl

lemma keyAlpha_nofeather (r g b a : ℕ) (tc : ColorRGB) (tol f : ℚ)
    (hf : f ≤ 0) :
    keyAlpha r g b a tc tol f =
      if (colorDistSq r g b tc : ℚ) ≤ max 0 tol * max 0 tol then 0 else a := by
  unfold keyAlpha
  rw [max_eq_left hf]
  simp only [lt_self_iff_false, false_and, if_false]

lemma keysAlpha_nofeather (r g b : ℕ) (tcs : List ColorRGB) (tol f : ℚ)
    (hf : f ≤ 0) (a : ℕ) :
    keysAlpha r g b tcs tol f a =
      if ∃ tc ∈ tcs, (colorDistSq r g b tc : ℚ) ≤ max 0 tol * max 0 tol then 0
      else a := by
  induction tcs generalizing a with
  | nil => simp [keysAlpha]
  | cons tc rest ih =>
    show keysAlpha r g b rest tol f (keyAlpha r g b a tc tol f) = _
    rw [ih, keyAlpha_nofeather r g b a tc tol f hf]
    by_cases h1 : (colorDistSq r g b tc : ℚ) ≤ max 0 tol * max 0 tol
    · simp [h1]
    · simp [h1]

lemma keysAlpha_nofeather_idem (r g b : ℕ) (tcs : List ColorRGB) (tol f : ℚ)
    (hf : f ≤ 0) (a : ℕ) :
    keysAlpha r g b tcs tol f (keysAlpha r g b tcs tol f a) =
      keysAlpha r g b tcs tol f a := by
  simp only [keysAlpha_nofeather r g b tcs tol f hf]
  by_cases h : ∃ tc ∈ tcs, (colorDistSq r g b tc : ℚ) ≤ max 0 tol * max 0 tol
  · simp [h]
  · simp [h]

lemma applyKeysData_nofeather_idem (tcs : List ColorRGB) (tol f : ℚ)
    (hf : f ≤ 0) :
    ∀ l : List ℕ, applyKeysData tcs tol f (applyKeysData tcs tol f l) =
      applyKeysData tcs tol f l
  | r :: g :: b :: a :: rest => by
    rw [applyKeysData_chunk, applyKeysData_chunk,
      keysAlpha_nofeather_idem r g b tcs tol f hf,
      applyKeysData_nofeather_idem tcs tol f hf rest]
  | [] => by simp only [applyKeysData_short tcs tol f [] (by norm_num)]
  | [x] => by simp only [applyKeysData_short tcs tol f [x] (by norm_num)]
  | [x, y] => by simp only [applyKeysData_short tcs tol f [x, y] (by norm_num)]
  | [x, y, z] => by
    simp only [applyKeysData_short tcs tol f [x, y, z] (by norm_num)]

/-- C1 counterexample: with tolerance 10 and feather 10, a single pixel at
color distance 15 from the single target has its alpha cut to
`round(255 * 0.5) = 128` by the first pass and to `round(128 * 0.5) = 64`
by the second, so applying the same color-key list twice differs from
applying it once. -/
theorem applyColorKeys_not_idempotent :
    applyColorKeysToImageData
        (applyColorKeysToImageData ⟨1, 1, [15, 0, 0, 255]⟩ [⟨0, 0, 0⟩] 10 10)
        [⟨0, 0, 0⟩] 10 10 ≠
      applyColorKeysToImageData ⟨1, 1, [15, 0, 0, 255]⟩ [⟨0, 0, 0⟩] 10 10 := by
  have hd : colorDistSq 15 0 0 ⟨0, 0, 0⟩ = 225 := by unfold colorDistSq; norm_num
  have hs : Real.sqrt ((colorDistSq 15 0 0 ⟨0, 0, 0⟩ : ℤ) : ℝ) = 15 := by
    rw [hd, show (((225 : ℤ)) : ℝ) = (15 : ℝ) ^ 2 by norm_num,
      Real.sqrt_sq (by norm_num)]
  have hkey : ∀ a : ℕ, keyAlpha 15 0 0 a ⟨0, 0, 0⟩ 10 10 =
      (round ((a : ℝ) * (1 / 2))).toNat := by
    intro a
    unfold keyAlpha
    rw [show (max 0 (10 : ℚ)) = 10 by norm_num,
      if_neg (by rw [hd]; norm_num),
      if_pos (by rw [hd]; constructor <;> norm_num)]
    have := featherRound_eq a (colorDistSq 15 0 0 ⟨0, 0, 0⟩) 10 10
      (by norm_num) (by norm_num) (by rw [hd]; norm_num) (by rw [hd]; norm_num)
    rw [hs] at this
    rw [show ((15 : ℝ) - ((10 : ℚ) : ℝ)) / ((10 : ℚ) : ℝ) = 1 / 2 by norm_num] at this
    omega
  have h255 : keyAlpha 15 0 0 255 ⟨0, 0, 0⟩ 10 10 = 128 := by
    rw [hkey 255, show ((255 : ℕ) : ℝ) * (1 / 2) = 127.5 by norm_num, round_eq,
      show (127.5 + 1 / 2 : ℝ) = ((128 : ℤ) : ℝ) by norm_num, Int.floor_intCast]
    rfl
  have h128 : keyAlpha 15 0 0 128 ⟨0, 0, 0⟩ 10 10 = 64 := by
    rw [hkey 128, show ((128 : ℕ) : ℝ) * (1 / 2) = ((64 : ℤ) : ℝ) by norm_num,
      round_intCast]
    rfl
  have e1 : applyColorKeysToImageData ⟨1, 1, [15, 0, 0, 255]⟩ [⟨0, 0, 0⟩] 10 10 =
      ⟨1, 1, [15, 0, 0, 128]⟩ := by
    show applyColorKeyToImageData ⟨1, 1, [15, 0, 0, 255]⟩ ⟨0, 0, 0⟩ 10 10 = _
    unfold applyColorKeyToImageData
    show (⟨1, 1, 15 :: 0 :: 0 :: keyAlpha 15 0 0 255 ⟨0, 0, 0⟩ 10 10 ::
      applyColorKeyData ⟨0, 0, 0⟩ 10 10 []⟩ : ImageData) = _
    rw [h255]
    rfl
  have e2 : applyColorKeysToImageData ⟨1, 1, [15, 0, 0, 128]⟩ [⟨0, 0, 0⟩] 10 10 =
      ⟨1, 1, [15, 0, 0, 64]⟩ := by
    show applyColorKeyToImageData ⟨1, 1, [15, 0, 0, 128]⟩ ⟨0, 0, 0⟩ 10 10 = _
    unfold applyColorKeyToImageData
    show (⟨1, 1, 15 :: 0 :: 0 :: keyAlpha 15 0 0 128 ⟨0, 0, 0⟩ 10 10 ::
      applyColorKeyData ⟨0, 0, 0⟩ 10 10 []⟩ : ImageData) = _
    rw [h128]
    rfl
  rw [e1, e2]
  decide

/-- C1 (amended): applying the same non-empty color-key list twice is
equivalent to applying it once provided feathering is off
(`feather ≤ 0`, so `featherPx = 0` and only the hard-cut branch can fire);
with a positive feather the second pass shrinks feathered alphas again. -/
theorem applyColorKeys_idempotent_nofeather (img : ImageData)
    (tcs : List ColorRGB) (tol f : ℚ) (_hne : tcs ≠ []) (hf : f ≤ 0) :
    applyColorKeysToImageData (applyColorKeysToImageData img tcs tol f) tcs tol f =
      applyColorKeysToImageData img tcs tol f := by
  rw [applyColorKeysToImageData_eq img tcs tol f,
    applyColorKeysToImageData_eq
      ⟨img.width, img.height, applyKeysData tcs tol f img.data⟩ tcs tol f]
  dsimp only
  rw [applyKeysData_nofeather_idem tcs tol f hf img.data]

/-- Witness for the hypotheses of `applyColorKeys_idempotent_nofeather`. -/
theorem applyColorKeys_idempotent_nofeather_witness :
    ([⟨0, 0, 0⟩] : List ColorRGB) ≠ [] ∧ (0 : ℚ) ≤ 0 ∧
      applyColorKeysToImageData
          (applyColorKeysToImageData ⟨1, 1, [15, 0, 0, 255]⟩ [⟨0, 0, 0⟩] 5 0)
          [⟨0, 0, 0⟩] 5 0 =
        applyColorKeysToImageData ⟨1, 1, [15, 0, 0, 255]⟩ [⟨0, 0, 0⟩] 5 0 :=
  ⟨by decide, by decide,
    applyColorKeys_idempotent_nofeather ⟨1, 1, [15, 0, 0, 255]⟩ [⟨0, 0, 0⟩] 5 0
      (by decide) (by decide)⟩

/-- C9: a color-key pass never increases any byte of the buffer (in
particular no alpha), and a pixel whose alpha is already 0 keeps alpha 0
under any sequence of color keys. -/
theorem applyColorKey_alpha_never_increases :
    (∀ (img : ImageData) (tc : ColorRGB) (tol f : ℚ) (i : ℕ),
        (applyColorKeyToImageData img tc tol f).data.getD i 0 ≤
          img.data.getD i 0) ∧
      ∀ (img : ImageData) (tcs : List ColorRGB) (tol f : ℚ) (i : ℕ),
        img.data.getD i 0 = 0 →
          (applyColorKeysToImageData img tcs tol f).data.getD i 0 = 0 := by
  have hle : ∀ (img : ImageData) (tcs : List ColorRGB) (tol f : ℚ) (i : ℕ),
      (applyColorKeysToImageData img tcs tol f).data.getD i 0 ≤
        img.data.getD i 0 := by
    intro img tcs tol f i
    induction tcs generalizing img with
    | nil => exact le_refl _
    | cons tc rest ih =>
      exact le_trans (ih (applyColorKeyToImageData img tc tol f))
        (applyColorKeyData_getD_le tc tol f img.data i)
  exact ⟨fun img tc tol f i => applyColorKeyData_getD_le tc tol f img.data i,
    fun img tcs tol f i h0 =>
      Nat.le_zero.mp (le_trans (hle img tcs tol f i) (le_of_eq h0))⟩

/-- Witness for the hypothesis of `applyColorKey_alpha_never_increases`. -/
theorem applyColorKey_alpha_never_increases_witness :
    (⟨1, 1, [9, 9, 9, 0]⟩ : ImageData).data.getD 3 0 = 0 ∧
      (applyColorKeysToImageData ⟨1, 1, [9, 9, 9, 0]⟩ [⟨9, 9, 9⟩] 3 0).data.getD 3 0 = 0 :=
  ⟨rfl, applyColorKey_alpha_never_increases.2 ⟨1, 1, [9, 9, 9, 0]⟩ [⟨9, 9, 9⟩] 3 0 3 rfl⟩

/-! ## detectIslands

The iterative flood fill.  The `visited` marker array is modelled as the
finite set of marked indices; the explicit stack is a list whose head is
the top (the source pushes and pops at the array's tail).  The recursion
terminates because every push marks a previously unmarked in-range index
visited (lexicographic measure: unvisited count, then stack length). -/

/-- Source `isTransparent`: the alpha byte of the pixel at linear index
`idx` is 0. -/
def transpAt (data : List ℕ) (idx : ℕ) : Bool :=
  data.getD (idx * 4 + 3) 0 == 0

/-- The `neighbors` array of the source: up, down, left (or `-1` at the
left edge), right (or `-1` at the right edge). -/
def neighborList (w : ℕ) (curr : ℕ) : List ℤ :=
  [(curr : ℤ) - w, (curr : ℤ) + w,
    if 0 < curr % w then (curr : ℤ) - 1 else -1,
    if curr % w < w - 1 then (curr : ℤ) + 1 else -1]

/-- State of one island's flood fill: visited set and running bounds. -/
structure FloodState where
  vis : Finset ℕ
  minX : ℕ
  maxX : ℕ
  minY : ℕ
  maxY : ℕ
  deriving DecidableEq

/-- The `for (const n of neighbors)` loop: each in-range, unvisited,
non-transparent neighbor is marked visited and pushed. -/
def pushNeighbors (transp : ℕ → Bool) (wh : ℕ) :
    List ℤ → Finset ℕ → List ℕ → Finset ℕ × List ℕ
  | [], vis, st => (vis, st)
  | n :: rest, vis, st =>
    if 0 ≤ n ∧ n < (wh : ℤ) ∧ n.toNat ∉ vis ∧ transp n.toNat = false then
      pushNeighbors transp wh rest (insert n.toNat vis) (n.toNat :: st)
    else pushNeighbors transp wh rest vis st

lemma pushNeighbors_vis_subset (transp : ℕ → Bool) (wh : ℕ) :
    ∀ (ns : List ℤ) (vis : Finset ℕ) (st : List ℕ),
      vis ⊆ (pushNeighbors transp wh ns vis st).1 := by
  intro ns
  induction ns with
  | nil => intro vis st; exact Finset.Subset.refl vis
  | cons n rest ih =>
    intro vis st
    unfold pushNeighbors
    split
    · exact Finset.Subset.trans (Finset.subset_insert _ _) (ih _ _)
    · exact ih _ _

lemma pushNeighbors_dichotomy (transp : ℕ → Bool) (wh : ℕ) :
    ∀ (ns : List ℤ) (vis : Finset ℕ) (st : List ℕ),
      (Finset.range wh \ (pushNeighbors transp wh ns vis st).1).card <
          (Finset.range wh \ vis).card ∨
        ((pushNeighbors transp wh ns vis st).1 = vis ∧
          (pushNeighbors transp wh ns vis st).2 = st) := by
  intro ns
  induction ns with
  | nil => intro vis st; exact Or.inr ⟨rfl, rfl⟩
  | cons n rest ih =>
    intro vis st
    unfold pushNeighbors
    split
    · rename_i hcond
      left
      have hmem : n.toNat ∈ Finset.range wh \ vis := by
        rw [Finset.mem_sdiff, Finset.mem_range]
        exact ⟨by omega, hcond.2.2.1⟩
      have h1 : (Finset.range wh \ insert n.toNat vis).card <
          (Finset.range wh \ vis).card := by
        rw [Finset.sdiff_insert]
        exact Finset.card_erase_lt_of_mem hmem
      have h2 : (Finset.range wh \
            (pushNeighbors transp wh rest (insert n.toNat vis) (n.toNat :: st)).1).card ≤
          (Finset.range wh \ insert n.toNat vis).card := by
        apply Finset.card_le_card
        apply Finset.sdiff_subset_sdiff (Finset.Subset.refl _)
        exact pushNeighbors_vis_subset transp wh rest _ _
      omega
    · exact ih vis st

/-- The `while (stack.length > 0)` loop of one island. -/
def floodLoop (w wh : ℕ) (transp : ℕ → Bool) :
    List ℕ → FloodState → FloodState
  | [], st => st
  | curr :: rest, st =>
    let p := pushNeighbors transp wh (neighborList w curr) st.vis rest
    floodLoop w wh transp p.2
      ⟨p.1, min st.minX (curr % w), max st.maxX (curr % w),
        min st.minY (curr / w), max st.maxY (curr / w)⟩
  termination_by stack st => ((Finset.range wh \ st.vis).card, stack.length)
  decreasing_by
    rcases pushNeighbors_dichotomy transp wh (neighborList w curr) st.vis rest with
      h | ⟨h1, h2⟩
    · exact Prod.Lex.left _ _ h
    · rw [h1, h2]
      exact Prod.Lex.right _ (by simp)

/-- State of the outer scan: visited marks, emitted rects, id counter and
the (read-only, threaded) buffer. -/
structure DetectAcc where
  vis : Finset ℕ
  rects : List Rect
  idC : ℕ
  data : List ℕ
  deriving DecidableEq

/-- Body of the outer double loop of `detectIslands` at linear index
`idx` (`x = idx % w`, `y = idx / w`). -/
def detectStep (w wh : ℕ) (minW minH : ℤ) (st : DetectAcc) (idx : ℕ) :
    DetectAcc :=
  if idx ∈ st.vis ∨ transpAt st.data idx then st
  else
    let f := floodLoop w wh (transpAt st.data) [idx]
      ⟨insert idx st.vis, idx % w, idx % w, idx / w, idx / w⟩
    if minW ≤ (f.maxX : ℤ) - f.minX + 1 ∧ minH ≤ (f.maxY : ℤ) - f.minY + 1 then
      ⟨f.vis,
        st.rects ++ [⟨"island-" ++ toString st.idC, f.minX, f.minY,
          (f.maxX : ℤ) - f.minX + 1, (f.maxY : ℤ) - f.minY + 1⟩],
        st.idC + 1, st.data⟩
    else ⟨f.vis, st.rects, st.idC, st.data⟩

/-- The full scan of `detectIslands`, including the threaded buffer. -/
def detectIslandsRun (img : ImageData) (minW minH : ℤ) : DetectAcc :=
  (List.range (img.width * img.height)).foldl
    (detectStep img.width (img.width * img.height) minW minH)
    ⟨∅, [], 0, img.data⟩

/-- Source `detectIslands` (the emitted rectangle list). -/
def detectIslands (img : ImageData) (minW minH : ℤ) : List Rect :=
  (detectIslandsRun img minW minH).rects

/-! ### Linear index / coordinate toolkit -/

lemma enc_lt {w h x y : ℕ} (hx : x < w) (hy : y < h) : y * w + x < w * h := by
  calc y * w + x < y * w + w := by omega
    _ = (y + 1) * w := by ring
    _ ≤ h * w := Nat.mul_le_mul_right w hy
    _ = w * h := Nat.mul_comm h w

lemma enc_mod {w x : ℕ} (y : ℕ) (hx : x < w) : (y * w + x) % w = x := by
  rw [Nat.add_comm, Nat.add_mul_mod_self_right, Nat.mod_eq_of_lt hx]

lemma enc_div {w x : ℕ} (y : ℕ) (hx : x < w) : (y * w + x) / w = y := by
  rw [Nat.add_comm, Nat.add_mul_div_right _ _ (by omega : 0 < w),
    Nat.div_eq_of_lt hx]
  omega

lemma idx_decomp {w : ℕ} (i : ℕ) (hw : 0 < w) :
    i = (i / w) * w + i % w ∧ i % w < w :=
  ⟨by rw [Nat.mul_comm]; exact (Nat.div_add_mod i w).symm, Nat.mod_lt i hw⟩

/-! ### Geometry of the neighbor list -/

/-- An admissible (in-range) entry of the neighbor list of `i` is one of
the four 4-neighbors of `i` in coordinates. -/
lemma neighbor_coords (w h i m : ℕ) (hw : 0 < w) (hi : i < w * h)
    (n : ℤ) (hn : n ∈ neighborList w i) (htn : n.toNat = m)
    (h0 : 0 ≤ n) (hlt : n < ((w * h : ℕ) : ℤ)) :
    m < w * h ∧
      ((m % w = i % w ∧ (m / w + 1 = i / w ∨ m / w = i / w + 1)) ∨
        (m / w = i / w ∧ (m % w + 1 = i % w ∨ m % w = i % w + 1))) := by
  obtain ⟨hdec, hxlt⟩ := idx_decomp i hw
  have hmz : (m : ℤ) = n := by rw [← htn, Int.toNat_of_nonneg h0]
  have hkey1 : (i / w + 1) * w = (i / w) * w + w := Nat.succ_mul _ w
  unfold neighborList at hn
  simp only [List.mem_cons, List.not_mem_nil, or_false] at hn
  rcases hn with rfl | rfl | rfl | rfl
  · have hwi : w ≤ i := by omega
    have hy1 : 1 ≤ i / w := by
      rcases Nat.eq_zero_or_pos (i / w) with hy0 | hy1
      · rw [hy0, Nat.zero_mul] at hdec; omega
      · exact hy1
    have hkey2 : (i / w - 1) * w + w = (i / w) * w := by
      calc (i / w - 1) * w + w = ((i / w - 1) + 1) * w := (Nat.succ_mul _ _).symm
        _ = (i / w) * w := by rw [Nat.sub_add_cancel hy1]
    have hm : m = (i / w - 1) * w + i % w := by omega
    have hmod : m % w = i % w := by rw [hm]; exact enc_mod _ hxlt
    have hdiv : m / w = i / w - 1 := by rw [hm]; exact enc_div _ hxlt
    exact ⟨by omega, Or.inl ⟨hmod, Or.inl (by omega)⟩⟩
  · have hm : m = (i / w + 1) * w + i % w := by omega
    have hmod : m % w = i % w := by rw [hm]; exact enc_mod _ hxlt
    have hdiv : m / w = i / w + 1 := by rw [hm]; exact enc_div _ hxlt
    exact ⟨by omega, Or.inl ⟨hmod, Or.inr (by omega)⟩⟩
  · by_cases hx0 : 0 < i % w
    · rw [if_pos hx0] at hmz
      have hm : m = (i / w) * w + (i % w - 1) := by omega
      have hmod : m % w = i % w - 1 := by rw [hm]; exact enc_mod _ (by omega)
      have hdiv : m / w = i / w := by rw [hm]; exact enc_div _ (by omega)
      exact ⟨by omega, Or.inr ⟨hdiv, Or.inl (by omega)⟩⟩
    · rw [if_neg hx0] at h0
      exact absurd h0 (by norm_num)
  · by_cases hxr : i % w < w - 1
    · rw [if_pos hxr] at hmz
      have hm : m = (i / w) * w + (i % w + 1) := by omega
      have hmod : m % w = i % w + 1 := by rw [hm]; exact enc_mod _ (by omega)
      have hdiv : m / w = i / w := by rw [hm]; exact enc_div _ (by omega)
      exact ⟨by omega, Or.inr ⟨hdiv, Or.inr (by omega)⟩⟩
    · rw [if_neg hxr] at h0
      exact absurd h0 (by norm_num)

lemma nbr_up (w h x y : ℕ) (hx : x < w) (hy : y < h) (hy0 : 0 < y) :
    ∃ n ∈ neighborList w (y * w + x), n.toNat = (y - 1) * w + x ∧ 0 ≤ n ∧
      n < ((w * h : ℕ) : ℤ) := by
  have hcast : ((y * w + x : ℕ) : ℤ) - (w : ℤ) = (((y - 1) * w + x : ℕ) : ℤ) := by
    push_cast [Nat.cast_sub hy0]
    ring
  refine ⟨((y * w + x : ℕ) : ℤ) - (w : ℤ), ?_, ?_, ?_, ?_⟩
  · unfold neighborList
    exact List.mem_cons_self _ _
  · rw [hcast, Int.toNat_natCast]
  · rw [hcast]
    exact Int.natCast_nonneg _
  · rw [hcast]
    exact_mod_cast enc_lt hx (by omega : y - 1 < h)

lemma nbr_down (w h x y : ℕ) (hx : x < w) (hy1 : y + 1 < h) :
    ∃ n ∈ neighborList w (y * w + x), n.toNat = (y + 1) * w + x ∧ 0 ≤ n ∧
      n < ((w * h : ℕ) : ℤ) := by
  have hcast : ((y * w + x : ℕ) : ℤ) + (w : ℤ) = (((y + 1) * w + x : ℕ) : ℤ) := by
    push_cast
    ring
  refine ⟨((y * w + x : ℕ) : ℤ) + (w : ℤ), ?_, ?_, ?_, ?_⟩
  · unfold neighborList
    exact List.mem_cons_of_mem _ (List.mem_cons_self _ _)
  · rw [hcast, Int.toNat_natCast]
  · rw [hcast]
    exact Int.natCast_nonneg _
  · rw [hcast]
    exact_mod_cast enc_lt hx hy1

lemma nbr_left (w h x y : ℕ) (hx : x < w) (hy : y < h) (hx0 : 0 < x) :
    ∃ n ∈ neighborList w (y * w + x), n.toNat = y * w + (x - 1) ∧ 0 ≤ n ∧
      n < ((w * h : ℕ) : ℤ) := by
  have hcast : ((y * w + x : ℕ) : ℤ) - 1 = ((y * w + (x - 1) : ℕ) : ℤ) := by
    push_cast [Nat.cast_sub hx0]
    ring
  refine ⟨((y * w + x : ℕ) : ℤ) - 1, ?_, ?_, ?_, ?_⟩
  · unfold neighborList
    rw [enc_mod y hx, if_pos hx0]
    exact List.mem_cons_of_mem _ (List.mem_cons_of_mem _ (List.mem_cons_self _ _))
  · rw [hcast, Int.toNat_natCast]
  · rw [hcast]
    exact Int.natCast_nonneg _
  · rw [hcast]
    exact_mod_cast enc_lt (by omega : x - 1 < w) hy

lemma nbr_right (w h x y : ℕ) (hy : y < h) (hxr : x + 1 < w) :
    ∃ n ∈ neighborList w (y * w + x), n.toNat = y * w + (x + 1) ∧ 0 ≤ n ∧
      n < ((w * h : ℕ) : ℤ) := by
  have hcast : ((y * w + x : ℕ) : ℤ) + 1 = ((y * w + (x + 1) : ℕ) : ℤ) := by
    push_cast
    ring
  refine ⟨((y * w + x : ℕ) : ℤ) + 1, ?_, ?_, ?_, ?_⟩
  · unfold neighborList
    rw [enc_mod y (by omega), if_pos (by omega : x < w - 1)]
    exact List.mem_cons_of_mem _ (List.mem_cons_of_mem _
      (List.mem_cons_of_mem _ (List.mem_cons_self _ _)))
  · rw [hcast, Int.toNat_natCast]
  · rw [hcast]
    exact Int.natCast_nonneg _
  · rw [hcast]
    exact_mod_cast enc_lt hxr hy


lemma pushNeighbors_vis_mem (transp : ℕ → Bool) (wh : ℕ) :
    ∀ (ns : List ℤ) (vis : Finset ℕ) (st : List ℕ) (m : ℕ),
      m ∈ (pushNeighbors transp wh ns vis st).1 ↔
        m ∈ vis ∨ ∃ n ∈ ns, n.toNat = m ∧ 0 ≤ n ∧ n < (wh : ℤ) ∧
          transp m = false ∧ m ∉ vis := by
  intro ns
  induction ns with
  | nil =>
    intro vis st m
    simp [pushNeighbors]
  | cons n rest ih =>
    intro vis st m
    unfold pushNeighbors
    split
    · rename_i hcond
      rw [ih]
      constructor
      · rintro (hm | ⟨n', hn', he, h0, hlt, htr, hnv⟩)
        · rw [Finset.mem_insert] at hm
          rcases hm with rfl | hm
          · by_cases hmv : n.toNat ∈ vis
            · exact Or.inl hmv
            · exact Or.inr ⟨n, List.mem_cons_self n rest, rfl, hcond.1,
                hcond.2.1, hcond.2.2.2, hmv⟩
          · exact Or.inl hm
        · have hnv' : m ∉ vis := fun hc => hnv (Finset.mem_insert_of_mem hc)
          exact Or.inr ⟨n', List.mem_cons_of_mem n hn', he, h0, hlt, htr, hnv'⟩
      · rintro (hm | ⟨n', hn', he, h0, hlt, htr, hnv⟩)
        · exact Or.inl (Finset.mem_insert_of_mem hm)
        · by_cases hmi : m ∈ insert n.toNat vis
          · exact Or.inl hmi
          · rcases List.mem_cons.mp hn' with rfl | hn''
            · exact absurd (he ▸ Finset.mem_insert_self n'.toNat vis) hmi
            · exact Or.inr ⟨n', hn'', he, h0, hlt, htr, hmi⟩
    · rename_i hcond
      rw [ih]
      constructor
      · rintro (hm | ⟨n', hn', he, h0, hlt, htr, hnv⟩)
        · exact Or.inl hm
        · exact Or.inr ⟨n', List.mem_cons_of_mem n hn', he, h0, hlt, htr, hnv⟩
      · rintro (hm | ⟨n', hn', he, h0, hlt, htr, hnv⟩)
        · exact Or.inl hm
        · rcases List.mem_cons.mp hn' with rfl | hn''
          · exact absurd ⟨h0, hlt, he ▸ hnv, he ▸ htr⟩ hcond
          · exact Or.inr ⟨n', hn'', he, h0, hlt, htr, hnv⟩

lemma pushNeighbors_stack_mem (transp : ℕ → Bool) (wh : ℕ) :
    ∀ (ns : List ℤ) (vis : Finset ℕ) (st : List ℕ) (q : ℕ),
      q ∈ (pushNeighbors transp wh ns vis st).2 ↔
        q ∈ st ∨ (q ∈ (pushNeighbors transp wh ns vis st).1 ∧ q ∉ vis) := by
  intro ns
  induction ns with
  | nil =>
    intro vis st q
    show q ∈ st ↔ q ∈ st ∨ (q ∈ vis ∧ q ∉ vis)
    constructor
    · exact Or.inl
    · rintro (h | ⟨h1, h2⟩)
      · exact h
      · exact absurd h1 h2
  | cons n rest ih =>
    intro vis st q
    unfold pushNeighbors
    split
    · rename_i hcond
      rw [ih]
      have hsub := pushNeighbors_vis_subset transp wh rest
        (insert n.toNat vis) (n.toNat :: st)
      constructor
      · rintro (hq | ⟨hq1, hq2⟩)
        · rcases List.mem_cons.mp hq with rfl | hq'
          · exact Or.inr ⟨hsub (Finset.mem_insert_self _ _), hcond.2.2.1⟩
          · exact Or.inl hq'
        · exact Or.inr ⟨hq1, fun hc => hq2 (Finset.mem_insert_of_mem hc)⟩
      · rintro (hq | ⟨hq1, hq2⟩)
        · exact Or.inl (List.mem_cons_of_mem _ hq)
        · by_cases hqn : q = n.toNat
          · exact Or.inl (hqn ▸ List.mem_cons_self _ _)
          · exact Or.inr ⟨hq1, by
              rw [Finset.mem_insert]
              rintro (hc | hc)
              · exact hqn hc
              · exact hq2 hc⟩
    · rename_i hcond
      rw [ih]

lemma pushNeighbors_stack_sub_vis (transp : ℕ → Bool) (wh : ℕ)
    (ns : List ℤ) (vis : Finset ℕ) (st : List ℕ)
    (hst : ∀ q ∈ st, q ∈ vis) :
    ∀ q ∈ (pushNeighbors transp wh ns vis st).2,
      q ∈ (pushNeighbors transp wh ns vis st).1 := by
  intro q hq
  rcases (pushNeighbors_stack_mem transp wh ns vis st q).mp hq with h | ⟨h, _⟩
  · exact pushNeighbors_vis_subset transp wh ns vis st (hst q h)
  · exact h

/-- Invariant of the flood-fill loop for one island: `C` is the candidate
component, `vis₀` the marks made before this island's fill, `s` the seed.
An element of `st.vis` outside `vis₀` that is no longer on the stack has
been popped ("done"): all its admissible opaque neighbors are marked, and
its coordinates are inside the running bounds. -/
structure FloodInv (w h : ℕ) (transp : ℕ → Bool) (C vis₀ : Finset ℕ) (s : ℕ)
    (stack : List ℕ) (st : FloodState) : Prop where
  subset0 : vis₀ ⊆ st.vis
  seedVis : s ∈ st.vis
  newInC : ∀ m ∈ st.vis, m ∉ vis₀ → m ∈ C
  stackNew : ∀ q ∈ stack, q ∈ st.vis ∧ q ∉ vis₀
  snodup : stack.Nodup
  closedDone : ∀ v ∈ st.vis, v ∉ vis₀ → v ∉ stack →
    ∀ n ∈ neighborList w v, 0 ≤ n → n < ((w * h : ℕ) : ℤ) →
      transp n.toNat = false → n.toNat ∈ st.vis
  seedLB : st.minX ≤ s % w ∧ s % w ≤ st.maxX ∧ st.minY ≤ s / w ∧ s / w ≤ st.maxY
  doneLB : ∀ v ∈ st.vis, v ∉ vis₀ → v ∉ stack →
    st.minX ≤ v % w ∧ v % w ≤ st.maxX ∧ st.minY ≤ v / w ∧ v / w ≤ st.maxY
  attMinX : st.minX = s % w ∨ ∃ v, v ∈ st.vis ∧ v ∉ vis₀ ∧ v ∉ stack ∧ st.minX = v % w
  attMaxX : st.maxX = s % w ∨ ∃ v, v ∈ st.vis ∧ v ∉ vis₀ ∧ v ∉ stack ∧ st.maxX = v % w
  attMinY : st.minY = s / w ∨ ∃ v, v ∈ st.vis ∧ v ∉ vis₀ ∧ v ∉ stack ∧ st.minY = v / w
  attMaxY : st.maxY = s / w ∨ ∃ v, v ∈ st.vis ∧ v ∉ vis₀ ∧ v ∉ stack ∧ st.maxY = v / w

lemma pushNeighbors_nodup (transp : ℕ → Bool) (wh : ℕ) :
    ∀ (ns : List ℤ) (vis : Finset ℕ) (st : List ℕ),
      st.Nodup → (∀ q ∈ st, q ∈ vis) →
        (pushNeighbors transp wh ns vis st).2.Nodup := by
  intro ns
  induction ns with
  | nil => intro vis st hnd _; exact hnd
  | cons n rest ih =>
    intro vis st hnd hst
    unfold pushNeighbors
    split
    · rename_i hcond
      apply ih
      · refine List.Nodup.cons ?_ hnd
        intro hc
        exact hcond.2.2.1 (hst _ hc)
      · intro q hq
        rcases List.mem_cons.mp hq with rfl | hq'
        · exact Finset.mem_insert_self _ _
        · exact Finset.mem_insert_of_mem (hst q hq')
    · exact ih vis st hnd hst

lemma floodInv_step (w h : ℕ) (transp : ℕ → Bool) (C vis₀ : Finset ℕ) (s : ℕ)
    (hclosed : ∀ i ∈ C, ∀ n ∈ neighborList w i, 0 ≤ n →
      n < ((w * h : ℕ) : ℤ) → transp n.toNat = false → n.toNat ∈ C)
    (curr : ℕ) (rest : List ℕ) (st : FloodState)
    (hinv : FloodInv w h transp C vis₀ s (curr :: rest) st) :
    FloodInv w h transp C vis₀ s
      (pushNeighbors transp (w * h) (neighborList w curr) st.vis rest).2
      ⟨(pushNeighbors transp (w * h) (neighborList w curr) st.vis rest).1,
        min st.minX (curr % w), max st.maxX (curr % w),
        min st.minY (curr / w), max st.maxY (curr / w)⟩ := by
  set P := pushNeighbors transp (w * h) (neighborList w curr) st.vis rest with hP
  have hsub : st.vis ⊆ P.1 := pushNeighbors_vis_subset _ _ _ _ _
  have hvm := pushNeighbors_vis_mem transp (w * h) (neighborList w curr) st.vis rest
  have hsm := pushNeighbors_stack_mem transp (w * h) (neighborList w curr) st.vis rest
  have hcurr := hinv.stackNew curr (List.mem_cons_self _ _)
  have hcurrC : curr ∈ C := hinv.newInC curr hcurr.1 hcurr.2
  have hnodup := List.nodup_cons.mp hinv.snodup
  have hrestsub : ∀ q ∈ rest, q ∈ st.vis :=
    fun q hq => (hinv.stackNew q (List.mem_cons_of_mem _ hq)).1
  have hcurrP2 : curr ∉ P.2 := by
    rw [hsm]
    rintro (hc | ⟨-, hc⟩)
    · exact hnodup.1 hc
    · exact hc hcurr.1
  have holdNotP2 : ∀ v, v ∈ st.vis → v ∉ (curr :: rest) → v ∉ P.2 := by
    intro v hv hvs
    rw [hsm]
    rintro (hc | ⟨-, hc⟩)
    · exact hvs (List.mem_cons_of_mem _ hc)
    · exact hc hv
  have hdoneCases : ∀ v, v ∈ P.1 → v ∉ P.2 →
      v = curr ∨ (v ∈ st.vis ∧ v ∉ (curr :: rest)) := by
    intro v hv1 hv2
    by_cases hvv : v ∈ st.vis
    · by_cases hvc : v = curr
      · exact Or.inl hvc
      · refine Or.inr ⟨hvv, ?_⟩
        intro hc
        rcases List.mem_cons.mp hc with rfl | hc'
        · exact hvc rfl
        · exact hv2 ((hsm v).mpr (Or.inl hc'))
    · exact absurd ((hsm v).mpr (Or.inr ⟨hv1, hvv⟩)) hv2
  refine ⟨?_, ?_, ?_, ?_, ?_, ?_, ?_, ?_, ?_, ?_, ?_, ?_⟩
  · exact Finset.Subset.trans hinv.subset0 hsub
  · exact hsub hinv.seedVis
  · intro m hm hm0
    rcases (hvm m).mp hm with hold | ⟨n, hn, htn, h0, hlt, htr, -⟩
    · exact hinv.newInC m hold hm0
    · exact htn ▸ hclosed curr hcurrC n hn h0 hlt (htn ▸ htr)
  · intro q hq
    rcases (hsm q).mp hq with hq' | ⟨hq1, hq2⟩
    · exact ⟨hsub (hrestsub q hq'), (hinv.stackNew q (List.mem_cons_of_mem _ hq')).2⟩
    · exact ⟨hq1, fun hc => hq2 (hinv.subset0 hc)⟩
  · exact pushNeighbors_nodup transp (w * h) (neighborList w curr) st.vis rest
      hnodup.2 hrestsub
  · intro v hv hv0 hvs n hn h0 hlt htr
    rcases hdoneCases v hv hvs with rfl | ⟨hvv, hvnot⟩
    · by_cases hns : n.toNat ∈ st.vis
      · exact hsub hns
      · exact (hvm n.toNat).mpr (Or.inr ⟨n, hn, rfl, h0, hlt, htr, hns⟩)
    · exact hsub (hinv.closedDone v hvv hv0 hvnot n hn h0 hlt htr)
  · obtain ⟨ha, hb, hc, hd⟩ := hinv.seedLB
    exact ⟨le_trans (min_le_left _ _) ha, le_trans hb (le_max_left _ _),
      le_trans (min_le_left _ _) hc, le_trans hd (le_max_left _ _)⟩
  · intro v hv hv0 hvs
    rcases hdoneCases v hv hvs with rfl | ⟨hvv, hvnot⟩
    · exact ⟨min_le_right _ _, le_max_right _ _, min_le_right _ _, le_max_right _ _⟩
    · obtain ⟨ha, hb, hc, hd⟩ := hinv.doneLB v hvv hv0 hvnot
      exact ⟨le_trans (min_le_left _ _) ha, le_trans hb (le_max_left _ _),
        le_trans (min_le_left _ _) hc, le_trans hd (le_max_left _ _)⟩
  · rcases min_cases st.minX (curr % w) with ⟨heq, -⟩ | ⟨heq, -⟩
    · rcases hinv.attMinX with hs | ⟨v, hv1, hv2, hv3, hv4⟩
      · exact Or.inl (heq.trans hs)
      · have hvnot : v ∉ (curr :: rest) := hv3
        exact Or.inr ⟨v, hsub hv1, hv2, holdNotP2 v hv1 hvnot, heq.trans hv4⟩
    · exact Or.inr ⟨curr, hsub hcurr.1, hcurr.2, hcurrP2, heq⟩
  · rcases max_cases st.maxX (curr % w) with ⟨heq, -⟩ | ⟨heq, -⟩
    · rcases hinv.attMaxX with hs | ⟨v, hv1, hv2, hv3, hv4⟩
      · exact Or.inl (heq.trans hs)
      · exact Or.inr ⟨v, hsub hv1, hv2, holdNotP2 v hv1 hv3, heq.trans hv4⟩
    · exact Or.inr ⟨curr, hsub hcurr.1, hcurr.2, hcurrP2, heq⟩
  · rcases min_cases st.minY (curr / w) with ⟨heq, -⟩ | ⟨heq, -⟩
    · rcases hinv.attMinY with hs | ⟨v, hv1, hv2, hv3, hv4⟩
      · exact Or.inl (heq.trans hs)
      · exact Or.inr ⟨v, hsub hv1, hv2, holdNotP2 v hv1 hv3, heq.trans hv4⟩
    · exact Or.inr ⟨curr, hsub hcurr.1, hcurr.2, hcurrP2, heq⟩
  · rcases max_cases st.maxY (curr / w) with ⟨heq, -⟩ | ⟨heq, -⟩
    · rcases hinv.attMaxY with hs | ⟨v, hv1, hv2, hv3, hv4⟩
      · exact Or.inl (heq.trans hs)
      · exact Or.inr ⟨v, hsub hv1, hv2, holdNotP2 v hv1 hv3, heq.trans hv4⟩
    · exact Or.inr ⟨curr, hsub hcurr.1, hcurr.2, hcurrP2, heq⟩

lemma floodLoop_inv (w h : ℕ) (transp : ℕ → Bool) (C vis₀ : Finset ℕ) (s : ℕ)
    (hclosed : ∀ i ∈ C, ∀ n ∈ neighborList w i, 0 ≤ n →
      n < ((w * h : ℕ) : ℤ) → transp n.toNat = false → n.toNat ∈ C) :
    ∀ (stack : List ℕ) (st : FloodState),
      FloodInv w h transp C vis₀ s stack st →
        FloodInv w h transp C vis₀ s []
          (floodLoop w (w * h) transp stack st) := by
  intro stack st
  refine floodLoop.induct w (w * h) transp
    (fun stack st => FloodInv w h transp C vis₀ s stack st →
      FloodInv w h transp C vis₀ s [] (floodLoop w (w * h) transp stack st))
    ?_ ?_ stack st
  · intro st hinv
    rw [floodLoop]
    exact hinv
  · intro curr rest st
    intro p ih hinv
    rw [floodLoop]
    exact ih (floodInv_step w h transp C vis₀ s hclosed curr rest st hinv)


/-- Linear indices of a 3×3 square with top-left corner `(sx, sy)`. -/
def sqC (w h sx sy : ℕ) : Finset ℕ :=
  (Finset.range (w * h)).filter
    (fun i => sx ≤ i % w ∧ i % w ≤ sx + 2 ∧ sy ≤ i / w ∧ i / w ≤ sy + 2)

lemma mem_sqC {w h sx sy i : ℕ} :
    i ∈ sqC w h sx sy ↔ i < w * h ∧
      sx ≤ i % w ∧ i % w ≤ sx + 2 ∧ sy ≤ i / w ∧ i / w ≤ sy + 2 := by
  unfold sqC
  rw [Finset.mem_filter, Finset.mem_range]

lemma enc_mem_sqC {w h sx sy x y : ℕ} (hx : x < w) (hy : y < h) :
    y * w + x ∈ sqC w h sx sy ↔
      sx ≤ x ∧ x ≤ sx + 2 ∧ sy ≤ y ∧ y ≤ sy + 2 := by
  rw [mem_sqC, enc_mod y hx, enc_div y hx]
  have := enc_lt hx hy
  tauto

lemma sq_min_idx {w h sx sy i : ℕ} (hw : 0 < w) (hi : i ∈ sqC w h sx sy) :
    sy * w + sx ≤ i := by
  rw [mem_sqC] at hi
  obtain ⟨hdec, hxlt⟩ := idx_decomp i hw
  have hmul : sy * w ≤ (i / w) * w := Nat.mul_le_mul_right w hi.2.2.2.1
  omega

/-- Closure of one square's index set under admissible opaque neighbors,
given that the opaque pixels are exactly the two separated squares. -/
lemma sq_closed (w h sx sy ox oy : ℕ) (transp : ℕ → Bool)
    (hbx : sx + 3 ≤ w) (_hby : sy + 3 ≤ h)
    (hsep : sx + 4 ≤ ox ∨ ox + 4 ≤ sx ∨ sy + 4 ≤ oy ∨ oy + 4 ≤ sy)
    (htr : ∀ i, i < w * h →
      (transp i = false ↔ (i ∈ sqC w h sx sy ∨ i ∈ sqC w h ox oy))) :
    ∀ i ∈ sqC w h sx sy, ∀ n ∈ neighborList w i, 0 ≤ n →
      n < ((w * h : ℕ) : ℤ) → transp n.toNat = false →
        n.toNat ∈ sqC w h sx sy := by
  intro i hi n hn h0 hlt htrm
  have hw : 0 < w := by omega
  have hiC := mem_sqC.mp hi
  obtain ⟨hmlt, hadj⟩ := neighbor_coords w h i n.toNat hw hiC.1 n hn rfl h0 hlt
  rcases (htr n.toNat hmlt).mp htrm with hm | hm
  · exact hm
  · exfalso
    have hmC := mem_sqC.mp hm
    rcases hsep with h4 | h4 | h4 | h4 <;>
      rcases hadj with ⟨hcol, hrow | hrow⟩ | ⟨hrow, hcol | hcol⟩ <;> omega

/-- One island's flood fill over a 3×3 square component computes exactly
the square's pixel set and its tight bounds. -/
lemma floodLoop_square (w h sx sy ox oy : ℕ) (transp : ℕ → Bool)
    (vis₀ : Finset ℕ)
    (hbx : sx + 3 ≤ w) (hby : sy + 3 ≤ h)
    (hsep : sx + 4 ≤ ox ∨ ox + 4 ≤ sx ∨ sy + 4 ≤ oy ∨ oy + 4 ≤ sy)
    (htr : ∀ i, i < w * h →
      (transp i = false ↔ (i ∈ sqC w h sx sy ∨ i ∈ sqC w h ox oy)))
    (hdisj : ∀ i ∈ sqC w h sx sy, i ∉ vis₀) :
    floodLoop w (w * h) transp [sy * w + sx]
        ⟨insert (sy * w + sx) vis₀, (sy * w + sx) % w, (sy * w + sx) % w,
          (sy * w + sx) / w, (sy * w + sx) / w⟩ =
      ⟨vis₀ ∪ sqC w h sx sy, sx, sx + 2, sy, sy + 2⟩ := by
  have hw : 0 < w := by omega
  set s := sy * w + sx with hs
  have hsx : sx < w := by omega
  have hsy : sy < h := by omega
  have hsmod : s % w = sx := enc_mod sy hsx
  have hsdiv : s / w = sy := enc_div sy hsx
  have hsC : s ∈ sqC w h sx sy := (enc_mem_sqC hsx hsy).mpr (by omega)
  have hinv0 : FloodInv w h transp (sqC w h sx sy) vis₀ s [s]
      ⟨insert s vis₀, s % w, s % w, s / w, s / w⟩ := by
    refine ⟨Finset.subset_insert _ _, Finset.mem_insert_self _ _, ?_, ?_,
      List.nodup_singleton s, ?_, ?_, ?_, ?_, ?_, ?_, ?_⟩
    · intro m hm hm0
      rcases Finset.mem_insert.mp hm with rfl | hm'
      · exact hsC
      · exact absurd hm' hm0
    · intro q hq
      rcases List.mem_singleton.mp hq with rfl
      exact ⟨Finset.mem_insert_self _ _, hdisj s hsC⟩
    · intro v hv hv0 hvs
      rcases Finset.mem_insert.mp hv with rfl | hv'
      · exact absurd (List.mem_singleton_self _) hvs
      · exact absurd hv' hv0
    · exact ⟨le_refl _, le_refl _, le_refl _, le_refl _⟩
    · intro v hv hv0 hvs
      rcases Finset.mem_insert.mp hv with rfl | hv'
      · exact absurd (List.mem_singleton_self _) hvs
      · exact absurd hv' hv0
    · exact Or.inl rfl
    · exact Or.inl rfl
    · exact Or.inl rfl
    · exact Or.inl rfl
  have hfin := floodLoop_inv w h transp (sqC w h sx sy) vis₀ s
    (sq_closed w h sx sy ox oy transp hbx hby hsep htr) [s]
    ⟨insert s vis₀, s % w, s % w, s / w, s / w⟩ hinv0
  set r := floodLoop w (w * h) transp [s]
    ⟨insert s vis₀, s % w, s % w, s / w, s / w⟩ with hr
  have hcell : ∀ dy ≤ 2, ∀ dx ≤ 2, ((sy + dy) * w + (sx + dx)) ∈ r.vis := by
    have hdone : ∀ v ∈ sqC w h sx sy, v ∈ r.vis →
        ∀ n ∈ neighborList w v, 0 ≤ n → n < ((w * h : ℕ) : ℤ) →
          transp n.toNat = false → n.toNat ∈ r.vis := by
      intro v hvC hv
      exact hfin.closedDone v hv (hdisj v hvC) (List.not_mem_nil v)
    have hstep : ∀ v ∈ sqC w h sx sy, v ∈ r.vis →
        ∀ m ∈ sqC w h sx sy,
          (∃ n ∈ neighborList w v, n.toNat = m ∧ 0 ≤ n ∧ n < ((w * h : ℕ) : ℤ)) →
            m ∈ r.vis := by
      rintro v hvC hv m hmC ⟨n, hn, htn, h0, hlt⟩
      have htrm : transp m = false :=
        (htr m (mem_sqC.mp hmC).1).mpr (Or.inl hmC)
      exact htn ▸ hdone v hvC hv n hn h0 hlt (htn ▸ htrm)
    have hrow : ∀ dx ≤ 2, (sy * w + (sx + dx)) ∈ r.vis := by
      intro dx
      induction dx with
      | zero => intro _; exact hfin.seedVis
      | succ dx ih =>
        intro hdx
        have hprev := ih (by omega)
        refine hstep (sy * w + (sx + dx)) ?_ hprev (sy * w + (sx + (dx + 1))) ?_ ?_
        · exact (enc_mem_sqC (by omega) hsy).mpr (by omega)
        · exact (enc_mem_sqC (by omega) hsy).mpr (by omega)
        · have := nbr_right w h (sx + dx) sy hsy (by omega)
          rcases this with ⟨n, hn, htn, h0, hlt⟩
          exact ⟨n, hn, by rw [htn]; congr 1, h0, hlt⟩
    intro dy
    induction dy with
    | zero =>
      intro _ dx hdx
      exact hrow dx hdx
    | succ dy ih =>
      intro hdy dx hdx
      have hprev := ih (by omega) dx hdx
      refine hstep ((sy + dy) * w + (sx + dx)) ?_ hprev
        ((sy + (dy + 1)) * w + (sx + dx)) ?_ ?_
      · exact (enc_mem_sqC (by omega) (by omega)).mpr (by omega)
      · exact (enc_mem_sqC (by omega) (by omega)).mpr (by omega)
      · have := nbr_down w h (sx + dx) (sy + dy) (by omega) (by omega)
        rcases this with ⟨n, hn, htn, h0, hlt⟩
        exact ⟨n, hn, by rw [htn]; congr 1, h0, hlt⟩
  have hvis : r.vis = vis₀ ∪ sqC w h sx sy := by
    apply Finset.Subset.antisymm
    · intro m hm
      by_cases hm0 : m ∈ vis₀
      · exact Finset.mem_union_left _ hm0
      · exact Finset.mem_union_right _ (hfin.newInC m hm hm0)
    · intro m hm
      rcases Finset.mem_union.mp hm with hm0 | hmC
      · exact hfin.subset0 hm0
      · have hc := mem_sqC.mp hmC
        obtain ⟨hdec, hxlt⟩ := idx_decomp m hw
        have := hcell (m / w - sy) (by omega) (m % w - sx) (by omega)
        have heq : (sy + (m / w - sy)) * w + (sx + (m % w - sx)) = m := by
          have h1 : sy + (m / w - sy) = m / w := by omega
          have h2 : sx + (m % w - sx) = m % w := by omega
          rw [h1, h2]
          omega
        rw [heq] at this
        exact this
  have hLB : ∀ v ∈ sqC w h sx sy,
      r.minX ≤ v % w ∧ v % w ≤ r.maxX ∧ r.minY ≤ v / w ∧ v / w ≤ r.maxY := by
    intro v hvC
    have hv : v ∈ r.vis := hvis ▸ Finset.mem_union_right _ hvC
    exact hfin.doneLB v hv (hdisj v hvC) (List.not_mem_nil v)
  have hattX : r.minX = sx ∧ r.maxX = sx + 2 ∧ r.minY = sy ∧ r.maxY = sy + 2 := by
    have h00 := hLB s hsC
    have h20 := hLB (sy * w + (sx + 2)) ((enc_mem_sqC (by omega) hsy).mpr (by omega))
    have h02 := hLB ((sy + 2) * w + sx) ((enc_mem_sqC hsx (by omega)).mpr (by omega))
    rw [hsmod, hsdiv] at h00
    rw [enc_mod sy (by omega), enc_div sy (by omega)] at h20
    rw [enc_mod (sy + 2) hsx, enc_div (sy + 2) hsx] at h02
    have hAminX : r.minX = sx := by
      rcases hfin.attMinX with hA | ⟨v, hv1, hv2, -, hv4⟩
      · omega
      · have : v ∈ sqC w h sx sy := hfin.newInC v hv1 hv2
        have := (mem_sqC.mp this).2.1
        omega
    have hAmaxX : r.maxX = sx + 2 := by
      rcases hfin.attMaxX with hA | ⟨v, hv1, hv2, -, hv4⟩
      · omega
      · have : v ∈ sqC w h sx sy := hfin.newInC v hv1 hv2
        have := (mem_sqC.mp this).2.2.1
        omega
    have hAminY : r.minY = sy := by
      rcases hfin.attMinY with hA | ⟨v, hv1, hv2, -, hv4⟩
      · omega
      · have : v ∈ sqC w h sx sy := hfin.newInC v hv1 hv2
        have := (mem_sqC.mp this).2.2.2.1
        omega
    have hAmaxY : r.maxY = sy + 2 := by
      rcases hfin.attMaxY with hA | ⟨v, hv1, hv2, -, hv4⟩
      · omega
      · have : v ∈ sqC w h sx sy := hfin.newInC v hv1 hv2
        have := (mem_sqC.mp this).2.2.2.2
        omega
    exact ⟨hAminX, hAmaxX, hAminY, hAmaxY⟩
  calc r = ⟨r.vis, r.minX, r.maxX, r.minY, r.maxY⟩ := rfl
    _ = ⟨vis₀ ∪ sqC w h sx sy, sx, sx + 2, sy, sy + 2⟩ := by
      rw [hvis, hattX.1, hattX.2.1, hattX.2.2.1, hattX.2.2.2]


/-! ### The outer scan over two separated squares -/

lemma detectStep_skip (w wh : ℕ) (minW minH : ℤ) (st : DetectAcc) (i : ℕ)
    (h : i ∈ st.vis ∨ transpAt st.data i = true) :
    detectStep w wh minW minH st i = st := by
  unfold detectStep
  rw [if_pos h]

lemma detect_skip_fold (w wh : ℕ) (minW minH : ℤ) :
    ∀ (l : List ℕ) (st : DetectAcc),
      (∀ i ∈ l, i ∈ st.vis ∨ transpAt st.data i = true) →
        l.foldl (detectStep w wh minW minH) st = st := by
  intro l
  induction l with
  | nil => intro st _; rfl
  | cons i rest ih =>
    intro st hall
    rw [List.foldl_cons, detectStep_skip w wh minW minH st i
      (hall i (List.mem_cons_self _ _))]
    exact ih st fun j hj => hall j (List.mem_cons_of_mem _ hj)

lemma range_split (a n : ℕ) (h : a < n) :
    List.range n = List.range a ++ a :: (List.range (n - a - 1)).map (a + 1 + ·) := by
  conv_lhs => rw [show n = a + (1 + (n - a - 1)) from by omega]
  rw [List.range_add, List.range_add, show List.range 1 = [0] from rfl,
    List.map_append, List.map_map, List.map_cons, List.map_nil]
  have hc : ((fun x => a + x) ∘ (fun x => 1 + x) : ℕ → ℕ) =
      (fun x => a + 1 + x) := by
    funext k
    simp only [Function.comp_apply]
    omega
  rw [hc]
  simp

lemma map_range_split (a b n : ℕ) (hab : a < b) (hbn : b < n) :
    (List.range (n - a - 1)).map (a + 1 + ·) =
      (List.range (b - a - 1)).map (a + 1 + ·) ++
        b :: (List.range (n - b - 1)).map (b + 1 + ·) := by
  rw [range_split (b - a - 1) (n - a - 1) (by omega), List.map_append,
    List.map_cons, List.map_map]
  have h1 : a + 1 + (b - a - 1) = b := by omega
  have h2 : n - a - 1 - (b - a - 1) - 1 = n - b - 1 := by omega
  have h3 : ((fun x => a + 1 + x) ∘ (fun x => b - a - 1 + 1 + x) : ℕ → ℕ) =
      (fun x => b + 1 + x) := by
    funext k
    simp only [Function.comp_apply]
    omega
  rw [h1, h2, h3]

/-- Effect of the outer loop body at the seed of a fresh 3×3 square
component: flood the square, then emit its rect iff it passes the size
filter. -/
lemma detectStep_seed (w h sx sy ox oy : ℕ) (minW minH : ℤ)
    (rects : List Rect) (idC : ℕ) (vis₀ : Finset ℕ) (data : List ℕ)
    (hbx : sx + 3 ≤ w) (hby : sy + 3 ≤ h)
    (hsep : sx + 4 ≤ ox ∨ ox + 4 ≤ sx ∨ sy + 4 ≤ oy ∨ oy + 4 ≤ sy)
    (htr : ∀ i, i < w * h →
      (transpAt data i = false ↔ (i ∈ sqC w h sx sy ∨ i ∈ sqC w h ox oy)))
    (hdisj : ∀ i ∈ sqC w h sx sy, i ∉ vis₀)
    (hseed : sy * w + sx ∉ vis₀) :
    detectStep w (w * h) minW minH ⟨vis₀, rects, idC, data⟩ (sy * w + sx) =
      if minW ≤ 3 ∧ minH ≤ 3 then
        ⟨vis₀ ∪ sqC w h sx sy,
          rects ++ [⟨"island-" ++ toString idC, sx, sy, 3, 3⟩], idC + 1, data⟩
      else ⟨vis₀ ∪ sqC w h sx sy, rects, idC, data⟩ := by
  have hw : 0 < w := by omega
  have hsx : sx < w := by omega
  have hsy : sy < h := by omega
  have hsC : sy * w + sx ∈ sqC w h sx sy := (enc_mem_sqC hsx hsy).mpr (by omega)
  have htr1 : transpAt data (sy * w + sx) = false :=
    (htr _ (enc_lt hsx hsy)).mpr (Or.inl hsC)
  unfold detectStep
  rw [if_neg (by simp [htr1, hseed])]
  simp only []
  rw [floodLoop_square w h sx sy ox oy (transpAt data) vis₀ hbx hby hsep htr hdisj]
  have hcx : ((sx + 2 : ℕ) : ℤ) - (sx : ℕ) + 1 = 3 := by push_cast; ring
  have hcy : ((sy + 2 : ℕ) : ℤ) - (sy : ℕ) + 1 = 3 := by push_cast; ring
  simp only [hcx, hcy]

/-- The scan of `detectIslands` over a buffer whose opaque pixels are
exactly two separated 3×3 squares, with the first square's seed coming
first in row-major order: both squares are flooded at their top-left
pixels, in scan order, and both rects are emitted iff the 3×3 size passes
the minimum-size filter. -/
lemma detectIslands_two_squares_ordered (img : ImageData) (w h x1 y1 x2 y2 : ℕ)
    (minW minH : ℤ) (hwimg : img.width = w) (hhimg : img.height = h)
    (hb1x : x1 + 3 ≤ w) (hb1y : y1 + 3 ≤ h)
    (hb2x : x2 + 3 ≤ w) (hb2y : y2 + 3 ≤ h)
    (hsep : x1 + 4 ≤ x2 ∨ x2 + 4 ≤ x1 ∨ y1 + 4 ≤ y2 ∨ y2 + 4 ≤ y1)
    (hlt : y1 * w + x1 < y2 * w + x2)
    (htr : ∀ i, i < w * h → (transpAt img.data i = false ↔
      (i ∈ sqC w h x1 y1 ∨ i ∈ sqC w h x2 y2))) :
    detectIslands img minW minH =
      if minW ≤ 3 ∧ minH ≤ 3 then
        [⟨"island-0", (x1 : ℤ), (y1 : ℤ), 3, 3⟩,
          ⟨"island-1", (x2 : ℤ), (y2 : ℤ), 3, 3⟩]
      else [] := by
  have hw : 0 < w := by omega
  have hs1 : y1 * w + x1 < w * h := enc_lt (by omega) (by omega)
  have hs2 : y2 * w + x2 < w * h := enc_lt (by omega) (by omega)
  have hs1C : y1 * w + x1 ∈ sqC w h x1 y1 :=
    (enc_mem_sqC (by omega) (by omega)).mpr (by omega)
  have hs2C : y2 * w + x2 ∈ sqC w h x2 y2 :=
    (enc_mem_sqC (by omega) (by omega)).mpr (by omega)
  have hdisj12 : ∀ i ∈ sqC w h x2 y2, i ∉ sqC w h x1 y1 := by
    intro i hi2 hi1
    have h1 := mem_sqC.mp hi1
    have h2 := mem_sqC.mp hi2
    rcases hsep with h4 | h4 | h4 | h4 <;> omega
  have hsepF : x2 + 4 ≤ x1 ∨ x1 + 4 ≤ x2 ∨ y2 + 4 ≤ y1 ∨ y1 + 4 ≤ y2 := by
    tauto
  have htrF : ∀ i, i < w * h → (transpAt img.data i = false ↔
      (i ∈ sqC w h x2 y2 ∨ i ∈ sqC w h x1 y1)) := by
    intro i hi
    rw [htr i hi]
    exact or_comm
  have hsegA : ∀ i ∈ List.range (y1 * w + x1),
      i ∈ (∅ : Finset ℕ) ∨ transpAt img.data i = true := by
    intro i hi
    rw [List.mem_range] at hi
    cases htb : transpAt img.data i with
    | false =>
      exfalso
      rcases (htr i (by omega)).mp htb with hm | hm
      · have := sq_min_idx hw hm
        omega
      · have := sq_min_idx hw hm
        omega
    | true => exact Or.inr rfl
  have hsegB : ∀ i ∈ (List.range (y2 * w + x2 - (y1 * w + x1) - 1)).map
      (fun x => y1 * w + x1 + 1 + x),
      i ∈ sqC w h x1 y1 ∨ transpAt img.data i = true := by
    intro i hi
    rw [List.mem_map] at hi
    obtain ⟨k, hk, rfl⟩ := hi
    rw [List.mem_range] at hk
    cases htb : transpAt img.data (y1 * w + x1 + 1 + k) with
    | false =>
      rcases (htr _ (by omega)).mp htb with hm | hm
      · exact Or.inl hm
      · have := sq_min_idx hw hm
        omega
    | true => exact Or.inr rfl
  have hsegC : ∀ i ∈ (List.range (w * h - (y2 * w + x2) - 1)).map
      (fun x => y2 * w + x2 + 1 + x),
      i ∈ sqC w h x1 y1 ∪ sqC w h x2 y2 ∨ transpAt img.data i = true := by
    intro i hi
    rw [List.mem_map] at hi
    obtain ⟨k, hk, rfl⟩ := hi
    rw [List.mem_range] at hk
    cases htb : transpAt img.data (y2 * w + x2 + 1 + k) with
    | false =>
      rcases (htr _ (by omega)).mp htb with hm | hm
      · exact Or.inl (Finset.mem_union_left _ hm)
      · exact Or.inl (Finset.mem_union_right _ hm)
    | true => exact Or.inr rfl
  unfold detectIslands detectIslandsRun
  rw [hwimg, hhimg]
  rw [range_split (y1 * w + x1) (w * h) hs1, List.foldl_append,
    detect_skip_fold w (w * h) minW minH (List.range (y1 * w + x1))
      ⟨∅, [], 0, img.data⟩ hsegA,
    List.foldl_cons,
    detectStep_seed w h x1 y1 x2 y2 minW minH [] 0 ∅ img.data hb1x hb1y hsep
      htr (fun i _ => Finset.not_mem_empty i) (Finset.not_mem_empty _)]
  simp only [Finset.empty_union, List.nil_append]
  rw [map_range_split (y1 * w + x1) (y2 * w + x2) (w * h) hlt hs2]
  by_cases hG : minW ≤ 3 ∧ minH ≤ 3
  · rw [if_pos hG, List.foldl_append,
      detect_skip_fold w (w * h) minW minH _
        ⟨sqC w h x1 y1, [⟨"island-" ++ toString 0, (x1 : ℤ), (y1 : ℤ), 3, 3⟩],
          0 + 1, img.data⟩ hsegB,
      List.foldl_cons,
      detectStep_seed w h x2 y2 x1 y1 minW minH _ _ _ img.data hb2x hb2y hsepF
        htrF hdisj12 (hdisj12 _ hs2C),
      if_pos hG,
      detect_skip_fold w (w * h) minW minH _ _ hsegC,
      if_pos hG]
    rfl
  · rw [if_neg hG, List.foldl_append,
      detect_skip_fold w (w * h) minW minH _
        ⟨sqC w h x1 y1, [], 0, img.data⟩ hsegB,
      List.foldl_cons,
      detectStep_seed w h x2 y2 x1 y1 minW minH _ _ _ img.data hb2x hb2y hsepF
        htrF hdisj12 (hdisj12 _ hs2C),
      if_neg hG,
      detect_skip_fold w (w * h) minW minH _ _ hsegC,
      if_neg hG]

lemma detectStep_data (w wh : ℕ) (minW minH : ℤ) (st : DetectAcc) (i : ℕ) :
    (detectStep w wh minW minH st i).data = st.data := by
  unfold detectStep
  split
  · rfl
  · dsimp only
    split <;> rfl

lemma detect_fold_data (w wh : ℕ) (minW minH : ℤ) :
    ∀ (l : List ℕ) (st : DetectAcc),
      (l.foldl (detectStep w wh minW minH) st).data = st.data := by
  intro l
  induction l with
  | nil => intro st; rfl
  | cons i rest ih =>
    intro st
    rw [List.foldl_cons, ih, detectStep_data]

lemma detectIslandsRun_data (img : ImageData) (minW minH : ℤ) :
    (detectIslandsRun img minW minH).data = img.data :=
  detect_fold_data _ _ _ _ _ _

/-- C4: on a buffer whose opaque pixels are exactly two fully opaque 3×3
squares separated by at least one transparent pixel on all sides,
`detectIslands` with both minima 1 returns exactly the two squares (in
row-major discovery order, ids counted from 0), and with `minWidth = 4`
it returns no rectangle. -/
theorem detectIslands_two_squares (img : ImageData) (x1 y1 x2 y2 : ℕ)
    (hb1x : x1 + 3 ≤ img.width) (hb1y : y1 + 3 ≤ img.height)
    (hb2x : x2 + 3 ≤ img.width) (hb2y : y2 + 3 ≤ img.height)
    (hsep : x1 + 4 ≤ x2 ∨ x2 + 4 ≤ x1 ∨ y1 + 4 ≤ y2 ∨ y2 + 4 ≤ y1)
    (hpix : ∀ x, x < img.width → ∀ y, y < img.height →
      alphaAt img x y =
        if (x1 ≤ x ∧ x ≤ x1 + 2 ∧ y1 ≤ y ∧ y ≤ y1 + 2) ∨
            (x2 ≤ x ∧ x ≤ x2 + 2 ∧ y2 ≤ y ∧ y ≤ y2 + 2) then 255 else 0) :
    (detectIslands img 1 1 =
        if y1 * img.width + x1 < y2 * img.width + x2 then
          [⟨"island-0", (x1 : ℤ), (y1 : ℤ), 3, 3⟩,
            ⟨"island-1", (x2 : ℤ), (y2 : ℤ), 3, 3⟩]
        else
          [⟨"island-0", (x2 : ℤ), (y2 : ℤ), 3, 3⟩,
            ⟨"island-1", (x1 : ℤ), (y1 : ℤ), 3, 3⟩]) ∧
      detectIslands img 4 1 = [] := by
  set w := img.width with hwdef
  set h := img.height with hhdef
  have hw : 0 < w := by omega
  have htr : ∀ i, i < w * h → (transpAt img.data i = false ↔
      (i ∈ sqC w h x1 y1 ∨ i ∈ sqC w h x2 y2)) := by
    intro i hi
    obtain ⟨hdec, hx⟩ := idx_decomp i hw
    have hy : i / w < h := by
      rw [Nat.div_lt_iff_lt_mul hw, Nat.mul_comm h w]
      exact hi
    have hidx : alphaAt img (i % w) (i / w) = img.data.getD (i * 4 + 3) 0 := by
      unfold alphaAt
      rw [← hwdef]
      congr 2
      omega
    have hpixi := hpix (i % w) hx (i / w) hy
    rw [hidx] at hpixi
    unfold transpAt
    by_cases hin : (x1 ≤ i % w ∧ i % w ≤ x1 + 2 ∧ y1 ≤ i / w ∧ i / w ≤ y1 + 2) ∨
        (x2 ≤ i % w ∧ i % w ≤ x2 + 2 ∧ y2 ≤ i / w ∧ i / w ≤ y2 + 2)
    · rw [if_pos hin] at hpixi
      rw [hpixi]
      apply iff_of_true (by decide)
      rcases hin with hin | hin
      · exact Or.inl (mem_sqC.mpr ⟨hi, hin.1, hin.2.1, hin.2.2.1, hin.2.2.2⟩)
      · exact Or.inr (mem_sqC.mpr ⟨hi, hin.1, hin.2.1, hin.2.2.1, hin.2.2.2⟩)
    · rw [if_neg hin] at hpixi
      rw [hpixi]
      apply iff_of_false (by decide)
      rintro (hm | hm) <;> · have := mem_sqC.mp hm; tauto
  have htrF : ∀ i, i < w * h → (transpAt img.data i = false ↔
      (i ∈ sqC w h x2 y2 ∨ i ∈ sqC w h x1 y1)) := by
    intro i hi
    rw [htr i hi]
    exact or_comm
  have hsepF : x2 + 4 ≤ x1 ∨ x1 + 4 ≤ x2 ∨ y2 + 4 ≤ y1 ∨ y1 + 4 ≤ y2 := by
    tauto
  have hne : y1 * w + x1 ≠ y2 * w + x2 := by
    intro he
    have hx1 : (y1 * w + x1) % w = x1 := enc_mod y1 (by omega)
    have hx2 : (y2 * w + x2) % w = x2 := enc_mod y2 (by omega)
    have hy1 : (y1 * w + x1) / w = y1 := enc_div y1 (by omega)
    have hy2 : (y2 * w + x2) / w = y2 := enc_div y2 (by omega)
    rw [he] at hx1 hy1
    omega
  rcases Nat.lt_or_ge (y1 * w + x1) (y2 * w + x2) with hlt | hge
  · constructor
    · rw [if_pos hlt,
        detectIslands_two_squares_ordered img w h x1 y1 x2 y2 1 1 rfl rfl
          hb1x hb1y hb2x hb2y hsep hlt htr,
        if_pos (by norm_num)]
    · rw [detectIslands_two_squares_ordered img w h x1 y1 x2 y2 4 1 rfl rfl
        hb1x hb1y hb2x hb2y hsep hlt htr,
        if_neg (by omega)]
  · have hlt2 : y2 * w + x2 < y1 * w + x1 := by omega
    constructor
    · rw [if_neg (by omega),
        detectIslands_two_squares_ordered img w h x2 y2 x1 y1 1 1 rfl rfl
          hb2x hb2y hb1x hb1y hsepF hlt2 htrF,
        if_pos (by norm_num)]
    · rw [detectIslands_two_squares_ordered img w h x2 y2 x1 y1 4 1 rfl rfl
        hb2x hb2y hb1x hb1y hsepF hlt2 htrF,
        if_neg (by omega)]

/-- A 7×3 buffer holding two opaque 3×3 squares (columns 0–2 and 4–6)
separated by the transparent column 3. -/
def twoSquares73 : ImageData :=
  ⟨7, 3,
    [0, 0, 0, 255, 0, 0, 0, 255, 0, 0, 0, 255, 0, 0, 0, 0,
      0, 0, 0, 255, 0, 0, 0, 255, 0, 0, 0, 255,
      0, 0, 0, 255, 0, 0, 0, 255, 0, 0, 0, 255, 0, 0, 0, 0,
      0, 0, 0, 255, 0, 0, 0, 255, 0, 0, 0, 255,
      0, 0, 0, 255, 0, 0, 0, 255, 0, 0, 0, 255, 0, 0, 0, 0,
      0, 0, 0, 255, 0, 0, 0, 255, 0, 0, 0, 255]⟩

/-- Witness for the hypotheses of `detectIslands_two_squares`: a 7×3
buffer holding two opaque 3×3 squares separated by one transparent
column. -/
theorem detectIslands_two_squares_witness :
    (0 + 3 ≤ (twoSquares73 : ImageData).width ∧ 0 + 4 ≤ 4) ∧
      detectIslands twoSquares73 1 1 =
        if 0 * (twoSquares73 : ImageData).width + 0 <
            0 * (twoSquares73 : ImageData).width + 4 then
          [⟨"island-0", (0 : ℤ), (0 : ℤ), 3, 3⟩, ⟨"island-1", (4 : ℤ), (0 : ℤ), 3, 3⟩]
        else
          [⟨"island-0", (4 : ℤ), (0 : ℤ), 3, 3⟩, ⟨"island-1", (0 : ℤ), (0 : ℤ), 3, 3⟩] :=
  ⟨⟨by decide, by decide⟩,
    (detectIslands_two_squares twoSquares73 0 0 4 0 (by decide) (by decide)
      (by decide) (by decide) (Or.inl (by decide)) (by decide)).1⟩

/-! ## getTrimmedBounds -/

/-- The result record `{x, y, w, h}` of `getTrimmedBounds`. -/
structure Bounds where
  x : ℤ
  y : ℤ
  w : ℤ
  h : ℤ
  deriving DecidableEq, Repr

/-- Accumulator `minX / minY / maxX / maxY` of the bounds scan. -/
structure BoundsAcc where
  minX : ℤ
  minY : ℤ
  maxX : ℤ
  maxY : ℤ
  deriving DecidableEq, Repr

/-- Row-major scan order of the two nested `for` loops (`y` outer,
`x` inner), as `(y, x)` pairs. -/
def scanPairs (h w : ℕ) : List (ℕ × ℕ) :=
  (List.range h).flatMap fun y => (List.range w).map fun x => (y, x)

/-- Loop body of `getTrimmedBounds` (reads the buffer, never writes it:
the buffer is threaded through the state unchanged). -/
def boundsStep (w : ℕ) (st : BoundsAcc × List ℕ) (p : ℕ × ℕ) :
    BoundsAcc × List ℕ :=
  if 0 < st.2.getD ((p.1 * w + p.2) * 4 + 3) 0 then
    (⟨min st.1.minX p.2, min st.1.minY p.1,
      max st.1.maxX p.2, max st.1.maxY p.1⟩, st.2)
  else st

/-- The full scan of `getTrimmedBounds`, including the threaded buffer. -/
def getTrimmedBoundsRun (img : ImageData) : BoundsAcc × List ℕ :=
  (scanPairs img.height img.width).foldl (boundsStep img.width)
    (⟨img.width, img.height, -1, -1⟩, img.data)

/-- Source `getTrimmedBounds`: `null` iff `maxX` was never raised from
`-1`, i.e. no pixel with positive alpha was seen. -/
def getTrimmedBounds (img : ImageData) : Option Bounds :=
  let r := (getTrimmedBoundsRun img).1
  if r.maxX = -1 then none
  else some ⟨r.minX, r.minY, r.maxX - r.minX + 1, r.maxY - r.minY + 1⟩

lemma foldl_snd_const {α β γ : Type} (f : (α × β) → γ → α × β)
    (hf : ∀ s a, (f s a).2 = s.2) :
    ∀ (l : List γ) (init : α × β), (l.foldl f init).2 = init.2 := by
  intro l
  induction l with
  | nil => intro init; rfl
  | cons a rest ih => intro init; rw [List.foldl_cons, ih, hf]

lemma boundsStep_snd (w : ℕ) (st : BoundsAcc × List ℕ) (p : ℕ × ℕ) :
    (boundsStep w st p).2 = st.2 := by
  unfold boundsStep
  split <;> rfl

lemma getTrimmedBoundsRun_snd (img : ImageData) :
    (getTrimmedBoundsRun img).2 = img.data :=
  foldl_snd_const _ (boundsStep_snd img.width) _ _

/-- Pure form of the bounds step once the buffer is known to be fixed. -/
def boundsStepP (data : List ℕ) (w : ℕ) (acc : BoundsAcc) (p : ℕ × ℕ) :
    BoundsAcc :=
  if 0 < data.getD ((p.1 * w + p.2) * 4 + 3) 0 then
    ⟨min acc.minX p.2, min acc.minY p.1, max acc.maxX p.2, max acc.maxY p.1⟩
  else acc

lemma boundsFold_pure (w : ℕ) (data : List ℕ) :
    ∀ (l : List (ℕ × ℕ)) (acc : BoundsAcc),
      l.foldl (boundsStep w) (acc, data) =
        (l.foldl (boundsStepP data w) acc, data) := by
  intro l
  induction l with
  | nil => intro acc; rfl
  | cons p rest ih =>
    intro acc
    rw [List.foldl_cons, List.foldl_cons]
    have hstep : boundsStep w (acc, data) p = (boundsStepP data w acc p, data) := by
      unfold boundsStep boundsStepP
      split <;> rfl
    rw [hstep, ih]

lemma boundsFold_id (w : ℕ) (data : List ℕ) :
    ∀ (l : List (ℕ × ℕ)) (acc : BoundsAcc),
      (∀ p ∈ l, data.getD ((p.1 * w + p.2) * 4 + 3) 0 = 0) →
        l.foldl (boundsStepP data w) acc = acc := by
  intro l
  induction l with
  | nil => intro acc _; rfl
  | cons p rest ih =>
    intro acc hall
    rw [List.foldl_cons]
    have h0 := hall p (List.mem_cons_self p rest)
    have : boundsStepP data w acc p = acc := by
      unfold boundsStepP
      rw [if_neg (by omega)]
    rw [this]
    exact ih acc fun q hq => hall q (List.mem_cons_of_mem p hq)

lemma boundsFold_maxX_mono (w : ℕ) (data : List ℕ) :
    ∀ (l : List (ℕ × ℕ)) (acc : BoundsAcc),
      acc.maxX ≤ (l.foldl (boundsStepP data w) acc).maxX := by
  intro l
  induction l with
  | nil => intro acc; exact le_refl _
  | cons p rest ih =>
    intro acc
    rw [List.foldl_cons]
    refine le_trans ?_ (ih (boundsStepP data w acc p))
    unfold boundsStepP
    split
    · exact le_max_left _ _
    · exact le_refl _

lemma boundsFold_maxX_of_opaque (w : ℕ) (data : List ℕ)
    (l : List (ℕ × ℕ)) (acc : BoundsAcc) (p : ℕ × ℕ) (hp : p ∈ l)
    (hop : 0 < data.getD ((p.1 * w + p.2) * 4 + 3) 0) :
    0 ≤ (l.foldl (boundsStepP data w) acc).maxX := by
  obtain ⟨l1, l2, rfl⟩ := List.append_of_mem hp
  rw [List.foldl_append, List.foldl_cons]
  refine le_trans ?_ (boundsFold_maxX_mono w data l2 _)
  unfold boundsStepP
  rw [if_pos hop]
  exact le_trans (Int.ofNat_nonneg p.2) (le_max_right _ _)

lemma mem_scanPairs (h w : ℕ) (p : ℕ × ℕ) :
    p ∈ scanPairs h w ↔ p.1 < h ∧ p.2 < w := by
  unfold scanPairs
  rcases p with ⟨y, x⟩
  simp [List.mem_flatMap, List.mem_range]

/-- C2: `extractFrame` is absent exactly when the keyed slice is fully
transparent (helper: `getTrimmedBounds` is `none` iff every pixel's alpha
is 0). -/
lemma getTrimmedBounds_none_iff (img : ImageData) :
    getTrimmedBounds img = none ↔
      ∀ x, x < img.width → ∀ y, y < img.height → alphaAt img x y = 0 := by
  unfold getTrimmedBounds
  simp only []
  have hrun : (getTrimmedBoundsRun img).1 =
      (scanPairs img.height img.width).foldl (boundsStepP img.data img.width)
        ⟨img.width, img.height, -1, -1⟩ := by
    unfold getTrimmedBoundsRun
    rw [boundsFold_pure]
  constructor
  · intro hnone x hx y hy
    by_contra hop
    have hpos : 0 < img.data.getD ((y * img.width + x) * 4 + 3) 0 := by
      unfold alphaAt at hop
      omega
    have hmem : (y, x) ∈ scanPairs img.height img.width :=
      (mem_scanPairs _ _ _).mpr ⟨hy, hx⟩
    have h0 := boundsFold_maxX_of_opaque img.width img.data _
      ⟨img.width, img.height, -1, -1⟩ (y, x) hmem hpos
    rw [← hrun] at h0
    split at hnone
    · omega
    · exact Option.noConfusion hnone
  · intro hall
    have : (getTrimmedBoundsRun img).1 = ⟨img.width, img.height, -1, -1⟩ := by
      rw [hrun]
      apply boundsFold_id
      intro p hp
      have := (mem_scanPairs _ _ p).mp hp
      have := hall p.2 this.2 p.1 this.1
      unfold alphaAt at this
      exact this
    rw [this]
    rfl

/-! ## extractFrame -/

/-- Processing slice of the settings record. -/
structure ProcessingSettings where
  autoTrim : Bool
  colorKeyEnabled : Bool
  colorKeyColors : List String
  colorKeyTolerance : ℚ
  colorKeyFeather : ℚ
  deriving DecidableEq

/-- Frame output record (the PNG blob and object URL of the source are
encodings of `pixels` produced by the canvas, not modelled). -/
structure FrameData where
  id : String
  rect : Rect
  pixels : ImageData
  trimOffset : ℤ × ℤ
  trimmedSize : ℤ × ℤ
  originalSize : ℤ × ℤ
  deriving DecidableEq

/-- RGBA bytes of pixel `(x, y)` of a buffer; outside the buffer a canvas
reads transparent black. -/
def pixelBytes (src : ImageData) (x y : ℤ) : List ℕ :=
  if 0 ≤ x ∧ x < (src.width : ℤ) ∧ 0 ≤ y ∧ y < (src.height : ℤ) then
    [src.data.getD ((y.toNat * src.width + x.toNat) * 4) 0,
      src.data.getD ((y.toNat * src.width + x.toNat) * 4 + 1) 0,
      src.data.getD ((y.toNat * src.width + x.toNat) * 4 + 2) 0,
      src.data.getD ((y.toNat * src.width + x.toNat) * 4 + 3) 0]
  else [0, 0, 0, 0]

/-- Copy of the `w × h` region of `src` with top-left corner `(x0, y0)`:
used for the `drawImage` slice (step 1) and for the negative-offset
`putImageData` crop of the auto-trim step. -/
def subImage (src : ImageData) (x0 y0 : ℤ) (w h : ℕ) : ImageData :=
  ⟨w, h, (List.range h).flatMap fun y => (List.range w).flatMap fun x =>
    pixelBytes src (x0 + x) (y0 + y)⟩

/-- Steps 1–2 of `extractFrame`: slice the rectangle, then apply the color
keys when enabled and at least one hex color parses. -/
def keyedSlice (src : ImageData) (rect : Rect) (s : ProcessingSettings) :
    ImageData :=
  let sliced := subImage src rect.x rect.y rect.w.toNat rect.h.toNat
  if s.colorKeyEnabled then
    let rgbs := s.colorKeyColors.filterMap hexToRgb
    if 0 < rgbs.length then
      applyColorKeysToImageData sliced rgbs s.colorKeyTolerance s.colorKeyFeather
    else sliced
  else sliced

/-- Source `extractFrame` with the DOM idealized away: canvas contexts and
PNG encoding always succeed, so the bounds check of step 3 is the only
exit that yields no frame. -/
def extractFrame (src : ImageData) (rect : Rect) (s : ProcessingSettings) :
    Option FrameData :=
  match getTrimmedBounds (keyedSlice src rect s) with
  | none => none
  | some bounds =>
    if s.autoTrim then
      some ⟨rect.id, rect,
        subImage (keyedSlice src rect s) bounds.x bounds.y bounds.w.toNat
          bounds.h.toNat,
        (bounds.x, bounds.y), (bounds.w, bounds.h), (rect.w, rect.h)⟩
    else
      some ⟨rect.id, rect, keyedSlice src rect s, (0, 0), (rect.w, rect.h),
        (rect.w, rect.h)⟩

/-- C2: `extractFrame` yields an absent result (`none`, not an error) if
and only if, after slicing and applying any enabled color keys, no pixel
of the buffer has positive alpha; the bounds check is the only early
exit. -/
theorem extractFrame_none_iff (src : ImageData) (rect : Rect)
    (s : ProcessingSettings) :
    extractFrame src rect s = none ↔
      ∀ x, x < (keyedSlice src rect s).width →
        ∀ y, y < (keyedSlice src rect s).height →
          alphaAt (keyedSlice src rect s) x y = 0 := by
  rw [← getTrimmedBounds_none_iff]
  unfold extractFrame
  rcases hb : getTrimmedBounds (keyedSlice src rect s) with _ | bounds
  · simp only [hb]
  · simp only [hb]
    constructor
    · intro hcon
      split at hcon <;> exact Option.noConfusion hcon
    · intro hcon
      exact Option.noConfusion hcon

/-- Witness for `extractFrame_none_iff` at a fully transparent 1×1 slice. -/
theorem extractFrame_none_iff_witness :
    extractFrame ⟨1, 1, [7, 7, 7, 0]⟩ ⟨"manual-0", 0, 0, 1, 1⟩
        ⟨false, false, [], 0, 0⟩ = none ∧
      ∀ x, x < (keyedSlice ⟨1, 1, [7, 7, 7, 0]⟩ ⟨"manual-0", 0, 0, 1, 1⟩
          ⟨false, false, [], 0, 0⟩).width →
        ∀ y, y < (keyedSlice ⟨1, 1, [7, 7, 7, 0]⟩ ⟨"manual-0", 0, 0, 1, 1⟩
            ⟨false, false, [], 0, 0⟩).height →
          alphaAt (keyedSlice ⟨1, 1, [7, 7, 7, 0]⟩ ⟨"manual-0", 0, 0, 1, 1⟩
            ⟨false, false, [], 0, 0⟩) x y = 0 :=
  ⟨by decide,
    (extractFrame_none_iff ⟨1, 1, [7, 7, 7, 0]⟩ ⟨"manual-0", 0, 0, 1, 1⟩
      ⟨false, false, [], 0, 0⟩).mp (by decide)⟩

/-- C5: every produced frame carries the source rectangle's id, and with
auto-trim disabled it is emitted untrimmed: zero trim offset and trimmed
size equal to the original size, both the source rectangle's size. -/
theorem extractFrame_fields (src : ImageData) (rect : Rect)
    (s : ProcessingSettings) :
    (∀ fd, extractFrame src rect s = some fd → fd.id = rect.id) ∧
      (s.autoTrim = false → ∀ fd, extractFrame src rect s = some fd →
        fd.trimOffset = (0, 0) ∧ fd.trimmedSize = (rect.w, rect.h) ∧
          fd.originalSize = (rect.w, rect.h) ∧
          fd.trimmedSize = fd.originalSize) := by
  constructor
  · intro fd hfd
    unfold extractFrame at hfd
    rcases hb : getTrimmedBounds (keyedSlice src rect s) with _ | bounds <;>
      rw [hb] at hfd
    · exact Option.noConfusion hfd
    · simp only [] at hfd
      split at hfd <;> · injection hfd with h; rw [← h]
  · intro htrim fd hfd
    unfold extractFrame at hfd
    rcases hb : getTrimmedBounds (keyedSlice src rect s) with _ | bounds <;>
      rw [hb] at hfd
    · exact Option.noConfusion hfd
    · simp only [htrim] at hfd
      rw [if_neg (by simp)] at hfd
      injection hfd with h
      rw [← h]
      exact ⟨rfl, rfl, rfl, rfl⟩

/-- Witness for the hypotheses of `extractFrame_fields` at an opaque 1×1
frame. -/
theorem extractFrame_fields_witness :
    extractFrame ⟨1, 1, [1, 2, 3, 255]⟩ ⟨"manual-3", 0, 0, 1, 1⟩
        ⟨false, false, [], 0, 0⟩ =
      some ⟨"manual-3", ⟨"manual-3", 0, 0, 1, 1⟩, ⟨1, 1, [1, 2, 3, 255]⟩,
        (0, 0), (1, 1), (1, 1)⟩ ∧
      (⟨false, false, [], 0, 0⟩ : ProcessingSettings).autoTrim = false ∧
      (⟨"manual-3", ⟨"manual-3", 0, 0, 1, 1⟩, ⟨1, 1, [1, 2, 3, 255]⟩,
        (0, 0), (1, 1), (1, 1)⟩ : FrameData).id = "manual-3" ∧
      (⟨"manual-3", ⟨"manual-3", 0, 0, 1, 1⟩, ⟨1, 1, [1, 2, 3, 255]⟩,
        (0, 0), (1, 1), (1, 1)⟩ : FrameData).trimOffset = (0, 0) :=
  ⟨by decide, rfl,
    (extractFrame_fields ⟨1, 1, [1, 2, 3, 255]⟩ ⟨"manual-3", 0, 0, 1, 1⟩
      ⟨false, false, [], 0, 0⟩).1 _ (by decide),
    ((extractFrame_fields ⟨1, 1, [1, 2, 3, 255]⟩ ⟨"manual-3", 0, 0, 1, 1⟩
      ⟨false, false, [], 0, 0⟩).2 rfl _ (by decide)).1⟩

/-- C7: color keying writes only alpha bytes — the buffer's dimensions,
byte count and every non-alpha byte are untouched — while the scans of
`getTrimmedBounds` and `detectIslands` only read: the buffer threaded
through their loops comes out unchanged. -/
theorem colorKey_writes_only_alpha :
    (∀ (img : ImageData) (tc : ColorRGB) (tol f : ℚ),
        (applyColorKeyToImageData img tc tol f).width = img.width ∧
          (applyColorKeyToImageData img tc tol f).height = img.height ∧
          (applyColorKeyToImageData img tc tol f).data.length =
            img.data.length ∧
          ∀ i, i % 4 ≠ 3 →
            (applyColorKeyToImageData img tc tol f).data.getD i 0 =
              img.data.getD i 0) ∧
      (∀ img : ImageData, (getTrimmedBoundsRun img).2 = img.data) ∧
      ∀ (img : ImageData) (minW minH : ℤ),
        (detectIslandsRun img minW minH).data = img.data :=
  ⟨fun img tc tol f =>
    ⟨rfl, rfl, applyColorKeyData_length tc tol f img.data,
      fun i hi => applyColorKeyData_getD_nonalpha tc tol f img.data i hi⟩,
    getTrimmedBoundsRun_snd,
    detectIslandsRun_data⟩

/-- Witness for the hypothesis of `colorKey_writes_only_alpha`. -/
theorem colorKey_writes_only_alpha_witness :
    (0 : ℕ) % 4 ≠ 3 ∧
      (applyColorKeyToImageData ⟨1, 1, [1, 2, 3, 4]⟩ ⟨1, 2, 3⟩ 0 0).data.getD 0 0 =
        (⟨1, 1, [1, 2, 3, 4]⟩ : ImageData).data.getD 0 0 :=
  ⟨by decide,
    (colorKey_writes_only_alpha.1 ⟨1, 1, [1, 2, 3, 4]⟩ ⟨1, 2, 3⟩ 0 0).2.2.2 0
      (by decide)⟩

end SpriteSlice
